import Mathlib

set_option maxHeartbeats 1000000
set_option maxRecDepth 100000
set_option linter.unusedVariables false

/-
Shallow embedding of src/quick_xor_hash.cpp (repository masamitsu-murase/quick_xor_hash).

Conventions of the embedding:
* a C++ `uint8_t` is a `Nat` below 256; a `block_t` (std::array<uint8_t, 20>) and the
  160-byte accumulator (std::array<uint8_t, 160>) are `List Nat` of the right length;
* a C++ `uint64_t` is a `Nat` reduced `% 2 ^ 64` wherever the C++ arithmetic wraps;
* every assignment to a `uint8_t` is reduced `% 256` exactly where the C++ truncates;
* the input stream is a `List Nat` of bytes; `istream::read` with a 160-byte buffer
  delivers `take 160` of the remaining bytes and `gcount()` is the length delivered;
* a byte array is read as a number least-significant byte first (index 0 is the low
  byte), matching the carry direction of `rotate_block`, via `blockVal` below.
-/

def BYTES_PER_BLOCK : Nat := 20

def BLOCK_UNIT_SIZE : Nat := BYTES_PER_BLOCK * 8

/-- The loop body of `rotate_block` (src lines 45-50): walk the byte array from
index 0 upward, threading a carry; each byte becomes `(b << shift) | carry`
truncated to 8 bits, and the next carry is `b >> (8 - shift)` (a `uint8_t`).
Returns the rewritten bytes together with the carry falling out of the last byte.
For `shift > 8` the C++ shift count `sizeof(uint8_t)*8 - shift` underflows
(undefined behaviour); the embedding totalizes it with truncated `Nat`
subtraction, i.e. `8 - shift = 0` there. -/
def rotate_bytes (shift : Nat) (carry : Nat) : List Nat → List Nat × Nat
  | [] => ([], carry)
  | b :: rest =>
    let temp_carry := (b >>> (8 - shift)) % 256
    let res := rotate_bytes shift temp_carry rest
    ((((b <<< shift) ||| carry) % 256) :: res.1, res.2)

/-- `rotate_block` from src lines 43-52: carry-chain left shift over the byte
array, then `block[0] |= carry` with the carry that fell out of `block[19]`. -/
def rotate_block (block : List Nat) (shift : Nat) : List Nat :=
  let res := rotate_bytes shift 0 block
  match res.1 with
  | [] => []
  | x :: xs => (x ||| res.2) :: xs

/-- `reverse_block` from src lines 54-59: the loop swaps `block[i]` with
`block[size-1-i]` for `i < size/2`, which is exactly list reversal. -/
def reverse_block (block : List Nat) : List Nat := block.reverse

/-- The C++ function `xor` from src lines 61-66: byte-wise in-place XOR of two
equally sized blocks (named `xor_block` here because `xor` is taken in Lean). -/
def xor_block (lhs rhs : List Nat) : List Nat := List.zipWith (fun a b => a ^^^ b) lhs rhs

/-- The accumulation `while` loop of `quick_xor_hash` (src lines 75-88): read up
to 160 bytes, add `gcount()` to the 64-bit counter, zero-fill the unread tail of
the read buffer when the read was short, XOR the buffer into `hash_data`, and
continue only when a full 160 bytes were read.  (When the input length is an
exact multiple of 160 the C++ loop performs one extra iteration that reads 0
bytes and XORs an all-zero buffer; the recursion below does the same.) -/
def accumulate_loop (input : List Nat) (hash_data : List Nat) (count : Nat) : List Nat × Nat :=
  let gcount := (input.take BLOCK_UNIT_SIZE).length
  let input_data := input.take BLOCK_UNIT_SIZE ++ List.replicate (BLOCK_UNIT_SIZE - gcount) 0
  let count2 := (count + gcount) % 2 ^ 64
  let hash2 := List.zipWith (fun a b => a ^^^ b) hash_data input_data
  if h : BLOCK_UNIT_SIZE ≤ input.length then
    accumulate_loop (input.drop BLOCK_UNIT_SIZE) hash2 count2
  else (hash2, count2)
termination_by input.length
decreasing_by
  simp only [List.length_drop]
  have : 0 < BLOCK_UNIT_SIZE := by decide
  omega

/-- One iteration of the Bit Scatter loop of `quick_xor_hash` (src lines 92-97):
`blocks[(i*11 % 160) % 8][(i*11 % 160) / 8] = hash_data[i]`. -/
def scatter_step (hash_data : List Nat) (blocks : List (List Nat)) (i : Nat) : List (List Nat) :=
  let mod_index := i * 11 % BLOCK_UNIT_SIZE
  let blocks_index := mod_index % 8
  let byte_index := mod_index / 8
  blocks.set blocks_index ((blocks.getD blocks_index []).set byte_index (hash_data.getD i 0))

/-- The Bit Scatter stage of `quick_xor_hash` (src lines 90-97): distribute the
160 accumulator bytes over 8 zero-initialized 20-byte blocks. -/
def scatter (hash_data : List Nat) : List (List Nat) :=
  (List.range BLOCK_UNIT_SIZE).foldl (scatter_step hash_data)
    (List.replicate 8 (List.replicate BYTES_PER_BLOCK 0))

/-- The Rotate-and-Combine loop of `quick_xor_hash` (src lines 99-103): starting
from `blocks[0]`, XOR in `rotate_block(blocks[i], i)` for `i = 1..7`. -/
def combine (blocks : List (List Nat)) : List Nat :=
  (List.range' 1 7).foldl
    (fun block i => xor_block block (rotate_block (blocks.getD i []) i))
    (blocks.getD 0 [])

/-- The length block of `quick_xor_hash` (src lines 107-110): a zero 20-byte
block whose bytes `0..7` receive the 64-bit counter,
`length_block[8 - i - 1] = (uint8_t)(count >> (i * 8))` for `i = 0..7`
(so the most significant counter byte lands at index 0, the least significant
at index 7). -/
def length_block (count : Nat) : List Nat :=
  (List.range 8).foldl
    (fun lb i => lb.set (8 - i - 1) ((count >>> (i * 8)) % 256))
    (List.replicate BYTES_PER_BLOCK 0)

/-- `quick_xor_hash` from src lines 68-114, on a byte stream given as a list:
accumulate, scatter, rotate-and-combine, byte-reverse, XOR in the length block. -/
def quick_xor_hash (input : List Nat) : List Nat :=
  let acc := accumulate_loop input (List.replicate BLOCK_UNIT_SIZE 0) 0
  let blocks := scatter acc.1
  let block := combine blocks
  let rblock := reverse_block block
  xor_block rblock (length_block acc.2)

/-
Reference formulation, translated from the pseudocode documented at the top of
src/quick_xor_hash.cpp (lines 1-29).  The abstract `block` of the pseudocode is
a 160-bit value, embedded as a `Nat` below 2 ^ 160; `zero()` is 0, `xor` is
`Nat` XOR, and the byte order inside the value is little-endian (byte `j` of the
value sits at bits `8*j .. 8*j+7`), which is also what `extend64`'s
"little-endian byte order" prescribes for the low 64 bits.
-/

/-- `extend8(byte b)` from the pseudocode: all zero bits except the lower 8,
which come from `b`. -/
def extend8 (b : Nat) : Nat := b % 256

/-- `extend64(int64 i)` from the pseudocode: all zero bits except the lower 64,
which come from `i` in little-endian byte order, i.e. the value `i mod 2^64`. -/
def extend64 (i : Nat) : Nat := i % 2 ^ 64

/-- `rotate(block bl, int n)` from the pseudocode: left rotation of a 160-bit
value by `n` bits (rotation is inherently modulo the 160-bit width). -/
def rotate (bl : Nat) (n : Nat) : Nat :=
  ((bl <<< (n % 160)) ||| (bl >>> (160 - n % 160))) % 2 ^ 160

/-- `reverse(block b)` from the pseudocode: the block with all 20 bytes
reversed (byte `j` of the argument becomes byte `19 - j` of the result). -/
def reverse (bl : Nat) : Nat :=
  (List.range 20).foldl (fun acc j => acc ^^^ (((bl >>> (8 * j)) % 256) <<< (8 * (19 - j)))) 0

/-- `XorHash0(byte[] rgb)` from the pseudocode: XOR together `extend8(rgb[i])`
rotated left by `i * 11` bits, then reverse the bytes. -/
def XorHash0 (rgb : List Nat) : Nat :=
  reverse ((List.range rgb.length).foldl
    (fun ret i => ret ^^^ rotate (extend8 (rgb.getD i 0)) (i * 11)) 0)

/-- `XorHash(byte[] rgb)` from the pseudocode: `xor(extend64(rgb.Length),
XorHash0(rgb))`. -/
def XorHash (rgb : List Nat) : Nat := extend64 rgb.length ^^^ XorHash0 rgb

/-- Big-endian variant of `extend64`, used by the amended claim C1: the 8 bytes
of the 64-bit value are placed in the low 64 bits in the reversed (big-endian)
byte order; precisely, byte `k` of `i` lands at bits `8*(7-k) .. 8*(7-k)+7`. -/
def extend64_be (i : Nat) : Nat :=
  (List.range 8).foldl (fun acc k => acc ^^^ (((i >>> (8 * k)) % 256) <<< (8 * (7 - k)))) 0

/-- The reference formulation amended to match the code: identical to `XorHash`
except that the total length enters with its 8 bytes in big-endian order. -/
def XorHash_be (rgb : List Nat) : Nat := extend64_be rgb.length ^^^ XorHash0 rgb

/-- Value of a byte array read least-significant byte first: byte `j` of the
list contributes to bits `8*j .. 8*j+7`.  This is the correspondence between a
`block_t` of the code and the abstract 160-bit block of the pseudocode. -/
def blockVal (l : List Nat) : Nat := l.foldr (fun b acc => b ^^^ (acc <<< 8)) 0

/-- XOR of `f` over the elements of a list of indices. -/
def xorList (l : List Nat) (f : Nat → Nat) : Nat := (l.map f).foldr (fun a b => a ^^^ b) 0

/-- XOR of `f j` over `j < n`. -/
def xorRange (n : Nat) (f : Nat → Nat) : Nat := xorList (List.range n) f

/-- XOR of all stream bytes that the accumulation loop folds into accumulator
position `j`: the bytes at stream positions `j, j+160, j+320, ...`. -/
def accByte (j : Nat) : List Nat → Nat
  | [] => 0
  | b :: rest => (b :: rest).getD j 0 ^^^ accByte j ((b :: rest).drop BLOCK_UNIT_SIZE)
termination_by l => l.length
decreasing_by
  simp only [List.length_drop, List.length_cons]
  have : 0 < BLOCK_UNIT_SIZE := by decide
  omega

/-- Inverse of the scatter destination map: `131 = 11⁻¹ (mod 160)`, so
`invp (i * 11 % 160) = i` for `i < 160`. -/
def invp (p : Nat) : Nat := 131 * p % BLOCK_UNIT_SIZE

/-- Closed form of the Bit Scatter result, proved equal to `scatter` below:
block `k`, byte `q` holds the accumulator byte whose destination is bit
position `8*q + k`. -/
def scatter_closed (hash_data : List Nat) : List (List Nat) :=
  (List.range 8).map fun k =>
    (List.range BYTES_PER_BLOCK).map fun q => hash_data.getD (invp (8 * q + k)) 0

/-- Destination of accumulator byte `i` under the code's Bit Scatter (src lines
93-95): the pair (block index, byte-within-block index). -/
def scatter_dest (i : Nat) : Nat × Nat :=
  (i * 11 % BLOCK_UNIT_SIZE % 8, i * 11 % BLOCK_UNIT_SIZE / 8)

/-- Destination of accumulator byte `i` as claims C2 and C8 state it, with the
modulus 1280 taken from the spec text (`p = (i * 11) mod 1280`, block `p mod 8`,
byte-within-block `p / 8`). -/
def scatter_dest_spec (i : Nat) : Nat × Nat :=
  (i * 11 % 1280 % 8, i * 11 % 1280 / 8)

/-- The length block as claim C3 states it: the 64-bit counter in the
lowest-order 8 bytes with the most significant byte at the highest byte index
of those 8 (index 7), hence byte `j` holds `(count >> (8*j)) & 0xff`. -/
def length_block_spec (count : Nat) : List Nat :=
  (List.range BYTES_PER_BLOCK).map fun j => if j < 8 then (count >>> (8 * j)) % 256 else 0

/-
Model of the file-level wrappers (src lines 116-141) for claim C5.  A
`std::ifstream` constructed on a missing file has `failbit` set; `read` on such
a stream transfers nothing (`gcount() = 0`) and, because the stream's exception
mask defaults to `goodbit`, no exception is ever thrown.  A read failing
mid-stream likewise just yields a short `gcount()`.  So the only observable
stream behaviours are captured by: either the stream delivers its contents, or
it delivers the empty byte sequence. -/
def stream_bytes (openOk : Bool) (contents : List Nat) : List Nat :=
  if openOk then contents else []

/-- `quick_xor_hash_file` (src lines 116-120): opens the stream and hashes it.
No operation in it can throw for a mere open/read failure, so the result is
always `Except.ok`. -/
def quick_xor_hash_file (openOk : Bool) (contents : List Nat) : Except String (List Nat) :=
  Except.ok (quick_xor_hash (stream_bytes openOk contents))

/-- `main` (src lines 122-141) for a correct argument count: on `Except.ok` it
prints the digest bytes highest index first and returns 0; only a thrown
exception would reach the `catch` branch returning 2. Result: (exit code,
printed digest bytes in print order if any). -/
def main_model (openOk : Bool) (contents : List Nat) : Nat × Option (List Nat) :=
  match quick_xor_hash_file openOk contents with
  | Except.ok result => (0, some result.reverse)
  | Except.error _ => (2, none)

/-
Generic helper lemmas: XOR algebra on `Nat`, XOR-folds over index lists, and
the value map `blockVal` from byte arrays to numbers.
-/

theorem xor_left_comm (a b c : Nat) : a ^^^ (b ^^^ c) = b ^^^ (a ^^^ c) := by
  rw [← Nat.xor_assoc, Nat.xor_comm a b, Nat.xor_assoc]

theorem shiftLeft_xor (a b k : Nat) : (a ^^^ b) <<< k = a <<< k ^^^ b <<< k := by
  apply Nat.eq_of_testBit_eq
  intro i
  simp only [Nat.testBit_shiftLeft, Nat.testBit_xor]
  cases h : decide (i ≥ k) <;> simp

theorem testBit_of_lt_pow {x n i : Nat} (h : x < 2 ^ n) (hn : n ≤ i) : x.testBit i = false :=
  Nat.testBit_lt_two_pow (lt_of_lt_of_le h (Nat.pow_le_pow_right (by norm_num) hn))

theorem xorList_nil (f : Nat → Nat) : xorList [] f = 0 := rfl

theorem xorList_cons (a : Nat) (l : List Nat) (f : Nat → Nat) :
    xorList (a :: l) f = f a ^^^ xorList l f := rfl

theorem xorList_append (l1 l2 : List Nat) (f : Nat → Nat) :
    xorList (l1 ++ l2) f = xorList l1 f ^^^ xorList l2 f := by
  induction l1 with
  | nil => simp [xorList_nil, xorList_cons]
  | cons a t ih =>
    simp only [List.cons_append, xorList_cons, ih, Nat.xor_assoc]

theorem xorList_map (l : List Nat) (g : Nat → Nat) (f : Nat → Nat) :
    xorList (l.map g) f = xorList l (fun x => f (g x)) := by
  unfold xorList
  rw [List.map_map]
  rfl

theorem xorList_perm {l1 l2 : List Nat} (h : l1.Perm l2) (f : Nat → Nat) :
    xorList l1 f = xorList l2 f := by
  induction h with
  | nil => rfl
  | cons a _ ih => simp only [xorList_cons, ih]
  | swap a b l => simp only [xorList_cons, xor_left_comm]
  | trans _ _ ih1 ih2 => rw [ih1, ih2]

theorem xorRange_succ (n : Nat) (f : Nat → Nat) :
    xorRange (n + 1) f = xorRange n f ^^^ f n := by
  unfold xorRange
  rw [List.range_succ, xorList_append]
  simp [xorList_cons, xorList_nil]

theorem xorRange_congr {n : Nat} {f g : Nat → Nat} (h : ∀ j < n, f j = g j) :
    xorRange n f = xorRange n g := by
  induction n with
  | zero => rfl
  | succ m ih =>
    rw [xorRange_succ, xorRange_succ, ih (fun j hj => h j (by omega)), h m (by omega)]

theorem xorRange_zero_fun (n : Nat) : xorRange n (fun _ => 0) = 0 := by
  induction n with
  | zero => rfl
  | succ m ih => rw [xorRange_succ, ih]; rfl

theorem xorRange_extend {m n : Nat} {f : Nat → Nat} (hmn : m ≤ n)
    (h : ∀ j, m ≤ j → j < n → f j = 0) : xorRange n f = xorRange m f := by
  induction n with
  | zero =>
    have hm0 : m = 0 := by omega
    subst hm0
    rfl
  | succ k ih =>
    rcases Nat.lt_or_ge m (k + 1) with hlt | hge
    · have hmk : m ≤ k := by omega
      rw [xorRange_succ, ih hmk (fun j h1 h2 => h j h1 (by omega)), h k hmk (by omega),
        Nat.xor_zero]
    · have hmk : m = k + 1 := by omega
      subst hmk
      rfl

theorem xorRange_xor (n : Nat) (f g : Nat → Nat) :
    xorRange n (fun j => f j ^^^ g j) = xorRange n f ^^^ xorRange n g := by
  induction n with
  | zero => simp [xorRange, xorList_nil]
  | succ m ih =>
    rw [xorRange_succ, xorRange_succ, xorRange_succ, ih]
    simp [Nat.xor_assoc, Nat.xor_comm, xor_left_comm]

theorem xorRange_shiftLeft (n k : Nat) (f : Nat → Nat) :
    xorRange n (fun j => f j <<< k) = (xorRange n f) <<< k := by
  induction n with
  | zero => simp [xorRange, xorList_nil]
  | succ m ih => rw [xorRange_succ, xorRange_succ, ih, shiftLeft_xor]

theorem xorRange_split (a b : Nat) (f : Nat → Nat) :
    xorRange (a + b) f = xorRange a f ^^^ xorList (List.range' a b) f := by
  unfold xorRange
  have h : List.range (a + b) = List.range a ++ List.range' a b := by
    rw [List.range_eq_range', List.range_eq_range']
    rw [show a + b = b + a from by omega]
    rw [← List.range'_append 0 a b 1]
    simp
  rw [h, xorList_append]

theorem xorList_range' (a b : Nat) (f : Nat → Nat) :
    xorList (List.range' a b) f = xorRange b (fun t => f (a + t)) := by
  rw [List.range'_eq_map_range, xorList_map]
  rfl

theorem blockVal_nil : blockVal [] = 0 := rfl

theorem blockVal_cons (b : Nat) (l : List Nat) :
    blockVal (b :: l) = b ^^^ (blockVal l <<< 8) := rfl

theorem blockVal_lt {l : List Nat} (h : ∀ x ∈ l, x < 256) :
    blockVal l < 2 ^ (8 * l.length) := by
  induction l with
  | nil => simp [blockVal_nil]
  | cons b t ih =>
    rw [blockVal_cons]
    have hb : b < 256 := h b (by simp)
    have ht : blockVal t < 2 ^ (8 * t.length) := ih (fun x hx => h x (by simp [hx]))
    have h1 : b < 2 ^ (8 * (t.length + 1)) := by
      calc b < 256 := hb
      _ = 2 ^ 8 := by norm_num
      _ ≤ 2 ^ (8 * (t.length + 1)) := Nat.pow_le_pow_right (by norm_num) (by omega)
    have h2 : blockVal t <<< 8 < 2 ^ (8 * (t.length + 1)) := by
      rw [Nat.shiftLeft_eq]
      calc blockVal t * 2 ^ 8 < 2 ^ (8 * t.length) * 2 ^ 8 := by
            exact (Nat.mul_lt_mul_right (by norm_num)).mpr ht
      _ = 2 ^ (8 * (t.length + 1)) := by rw [← Nat.pow_add]; ring_nf
    simpa [List.length_cons] using Nat.xor_lt_two_pow h1 h2

theorem testBit_blockVal {l : List Nat} (h : ∀ x ∈ l, x < 256) (i : Nat) :
    (blockVal l).testBit i = (l.getD (i / 8) 0).testBit (i % 8) := by
  induction l generalizing i with
  | nil => simp [blockVal_nil]
  | cons b t ih =>
    rw [blockVal_cons]
    have hb : b < 256 := h b (by simp)
    rcases Nat.lt_or_ge i 8 with hi | hi
    · have hdiv : i / 8 = 0 := by omega
      have hmod : i % 8 = i := by omega
      simp only [Nat.testBit_xor, Nat.testBit_shiftLeft, hdiv, hmod, List.getD_cons_zero]
      have hdecf : decide (i ≥ 8) = false := by
        simp only [decide_eq_false_iff_not]
        omega
      simp [hdecf]
    · have hbf : b.testBit i = false := testBit_of_lt_pow (show b < 2 ^ 8 from hb) (by omega)
      have hdec : decide (i ≥ 8) = true := by
        simp only [decide_eq_true_eq]
        omega
      simp only [Nat.testBit_xor, Nat.testBit_shiftLeft, hbf, hdec, Bool.true_and,
        Bool.false_bne]
      rw [ih (fun x hx => h x (by simp [hx])) (i - 8)]
      have h1 : (i - 8) / 8 = i / 8 - 1 := by omega
      have h2 : (i - 8) % 8 = i % 8 := by omega
      have h3 : i / 8 = (i / 8 - 1) + 1 := by omega
      rw [h1, h2, h3]
      simp [List.getD_cons_succ]

theorem blockVal_zipWith_xor {a b : List Nat} (h : a.length = b.length) :
    blockVal (List.zipWith (fun x y => x ^^^ y) a b) = blockVal a ^^^ blockVal b := by
  induction a generalizing b with
  | nil =>
    cases b with
    | nil => rfl
    | cons y t => simp at h
  | cons x ta ih =>
    cases b with
    | nil => simp at h
    | cons y tb =>
      simp only [List.zipWith_cons_cons, blockVal_cons]
      rw [ih (by simpa using h), shiftLeft_xor]
      simp [Nat.xor_assoc, Nat.xor_comm, xor_left_comm]

theorem blockVal_append (l1 l2 : List Nat) :
    blockVal (l1 ++ l2) = blockVal l1 ^^^ (blockVal l2 <<< (8 * l1.length)) := by
  induction l1 with
  | nil => simp [blockVal_nil]
  | cons b t ih =>
    simp only [List.cons_append, blockVal_cons, ih, shiftLeft_xor, List.length_cons]
    rw [Nat.xor_assoc]
    have h8 : 8 * t.length + 8 = 8 * (t.length + 1) := by omega
    rw [← Nat.shiftLeft_add, h8]

theorem blockVal_map_range (n : Nat) (f : Nat → Nat) :
    blockVal ((List.range n).map f) = xorRange n (fun q => f q <<< (8 * q)) := by
  induction n with
  | zero => rfl
  | succ m ih =>
    rw [List.range_succ, List.map_append, blockVal_append, xorRange_succ, ih]
    simp only [List.map_cons, List.map_nil, List.length_map, List.length_range]
    rw [blockVal_cons, blockVal_nil]
    simp [Nat.shiftLeft_eq]

theorem list_eq_map_range (l : List Nat) :
    l = (List.range l.length).map (fun q => l.getD q 0) := by
  apply List.ext_getElem
  · simp
  · intro n h1 h2
    rw [List.getElem_map, List.getElem_range, List.getD_eq_getElem l 0 h1]

theorem blockVal_eq_xorRange (l : List Nat) :
    blockVal l = xorRange l.length (fun q => l.getD q 0 <<< (8 * q)) := by
  conv_lhs => rw [list_eq_map_range l]
  rw [blockVal_map_range]

/-
Lemmas about the abstract 160-bit rotation `rotate` and byte extraction from
`blockVal`.
-/

theorem lor_lt_two_pow {x y n : Nat} (hx : x < 2 ^ n) (hy : y < 2 ^ n) : x ||| y < 2 ^ n :=
  Nat.bitwise_lt hx hy

theorem getD_lt_256 {l : List Nat} (h : ∀ x ∈ l, x < 256) (j : Nat) : l.getD j 0 < 256 := by
  rcases Nat.lt_or_ge j l.length with hj | hj
  · rw [List.getD_eq_getElem l 0 hj]
    exact h _ (List.getElem_mem hj)
  · rw [List.getD_eq_default _ _ hj]
    norm_num

theorem rotate_lt (bl n : Nat) : rotate bl n < 2 ^ 160 := by
  unfold rotate
  exact Nat.mod_lt _ (by norm_num)

theorem rotate_zero_val (n : Nat) : rotate 0 n = 0 := by
  unfold rotate
  simp

theorem testBit_rotate_lo {x : Nat} (hx : x < 2 ^ 160) (n : Nat) {i : Nat} (hi : i < 160) :
    (rotate x n).testBit i = x.testBit ((i + 160 - n % 160) % 160) := by
  unfold rotate
  have hm : n % 160 < 160 := Nat.mod_lt _ (by norm_num)
  rw [Nat.testBit_mod_two_pow, Nat.testBit_lor, Nat.testBit_shiftLeft, Nat.testBit_shiftRight]
  have hdi : decide (i < 160) = true := by
    simp only [decide_eq_true_eq]
    omega
  rcases Nat.lt_or_ge i (n % 160) with hlt | hge
  · have h1 : decide (i ≥ n % 160) = false := by
      simp only [decide_eq_false_iff_not]
      omega
    have h2 : (i + 160 - n % 160) % 160 = 160 - n % 160 + i := by omega
    simp [hdi, h1, h2]
  · have h1 : decide (i ≥ n % 160) = true := by
      simp only [decide_eq_true_eq]
      omega
    have h2 : x.testBit (160 - n % 160 + i) = false := testBit_of_lt_pow hx (by omega)
    have h3 : (i + 160 - n % 160) % 160 = i - n % 160 := by omega
    simp [hdi, h1, h2, h3]

theorem testBit_rotate_hi (x n : Nat) {i : Nat} (hi : 160 ≤ i) :
    (rotate x n).testBit i = false :=
  testBit_of_lt_pow (rotate_lt x n) hi

theorem rotate_xor_distrib {x y : Nat} (hx : x < 2 ^ 160) (hy : y < 2 ^ 160) (n : Nat) :
    rotate (x ^^^ y) n = rotate x n ^^^ rotate y n := by
  apply Nat.eq_of_testBit_eq
  intro i
  rcases Nat.lt_or_ge i 160 with hi | hi
  · rw [Nat.testBit_xor, testBit_rotate_lo (Nat.xor_lt_two_pow hx hy) n hi,
      testBit_rotate_lo hx n hi, testBit_rotate_lo hy n hi, Nat.testBit_xor]
  · rw [Nat.testBit_xor, testBit_rotate_hi _ _ hi, testBit_rotate_hi _ _ hi,
      testBit_rotate_hi _ _ hi]
    rfl

theorem rotate_rotate {x : Nat} (hx : x < 2 ^ 160) (a b : Nat) :
    rotate (rotate x a) b = rotate x (a + b) := by
  apply Nat.eq_of_testBit_eq
  intro i
  rcases Nat.lt_or_ge i 160 with hi | hi
  · have hj : (i + 160 - b % 160) % 160 < 160 := by omega
    rw [testBit_rotate_lo (rotate_lt x a) b hi, testBit_rotate_lo hx a hj,
      testBit_rotate_lo hx (a + b) hi]
    congr 1
    omega
  · rw [testBit_rotate_hi _ _ hi, testBit_rotate_hi _ _ hi]

theorem rotate_zero_rot {x : Nat} (hx : x < 2 ^ 160) : rotate x 0 = x := by
  unfold rotate
  have h1 : x >>> 160 = 0 := by
    rw [Nat.shiftRight_eq_div_pow]
    exact Nat.div_eq_of_lt hx
  have h0 : (0 : Nat) % 160 = 0 := rfl
  rw [h0, Nat.sub_zero, h1, Nat.shiftLeft_zero, Nat.or_zero, Nat.mod_eq_of_lt hx]

theorem rotate_of_small {x s : Nat} (hx : x < 256) (hs : s ≤ 152) : rotate x s = x <<< s := by
  unfold rotate
  have hsm : s % 160 = s := Nat.mod_eq_of_lt (by omega)
  rw [hsm]
  have h1 : x >>> (160 - s) = 0 := by
    rw [Nat.shiftRight_eq_div_pow]
    apply Nat.div_eq_of_lt
    calc x < 256 := hx
    _ = 2 ^ 8 := by norm_num
    _ ≤ 2 ^ (160 - s) := Nat.pow_le_pow_right (by norm_num) (by omega)
  have h2 : x <<< s < 2 ^ 160 := by
    have := Nat.shiftLeft_lt (n := 8) (m := s) (by simpa using hx)
    calc x <<< s < 2 ^ (8 + s) := this
    _ ≤ 2 ^ 160 := Nat.pow_le_pow_right (by norm_num) (by omega)
  rw [h1, Nat.or_zero, Nat.mod_eq_of_lt h2]

theorem blockVal_byte {l : List Nat} (h : ∀ x ∈ l, x < 256) (j : Nat) :
    (blockVal l >>> (8 * j)) % 256 = l.getD j 0 := by
  have h256 : (256 : Nat) = 2 ^ 8 := by norm_num
  apply Nat.eq_of_testBit_eq
  intro t
  rw [h256, Nat.testBit_mod_two_pow, Nat.testBit_shiftRight, testBit_blockVal h]
  rcases Nat.lt_or_ge t 8 with ht | ht
  · have hdiv : (8 * j + t) / 8 = j := by omega
    have hmod : (8 * j + t) % 8 = t := by omega
    have hdt : decide (t < 8) = true := by
      simp only [decide_eq_true_eq]
      omega
    rw [hdiv, hmod, hdt, Bool.true_and]
  · have hdt : decide (t < 8) = false := by
      simp only [decide_eq_false_iff_not]
      omega
    rw [hdt, Bool.false_and]
    exact (testBit_of_lt_pow (show l.getD j 0 < 2 ^ 8 from h256 ▸ getD_lt_256 h j) ht).symm

/-
Correctness of the code's `rotate_block` with respect to the abstract 160-bit
rotation, for shift amounts 0..8 (the C++ is undefined beyond 8; the algorithm
only uses 1..7).
-/

theorem rotate_bytes_val_step {b vt c s n : Nat} (hbb : b < 256) (hc : c < 2 ^ s) (hs : s ≤ 8) :
    ((b <<< s ||| c) % 256) ^^^ ((((vt <<< s) ||| (b >>> (8 - s))) % 2 ^ (8 * n)) <<< 8) =
      (((b ^^^ vt <<< 8) <<< s) ||| c) % 2 ^ (8 * (n + 1)) := by
  have h256 : (256 : Nat) = 2 ^ 8 := by norm_num
  apply Nat.eq_of_testBit_eq
  intro i
  rw [h256]
  simp only [Nat.testBit_xor, Nat.testBit_mod_two_pow, Nat.testBit_lor, Nat.testBit_shiftLeft,
    Nat.testBit_shiftRight]
  rcases Nat.lt_or_ge i 8 with hi8 | hi8
  · have hd8 : decide (i < 8) = true := by
      simp only [decide_eq_true_eq]; omega
    have hdge8 : decide (i ≥ 8) = false := by
      simp only [decide_eq_false_iff_not]; omega
    have hdlt : decide (i < 8 * (n + 1)) = true := by
      simp only [decide_eq_true_eq]; omega
    rcases Nat.lt_or_ge i s with his | his
    · have hds : decide (i ≥ s) = false := by
        simp only [decide_eq_false_iff_not]; omega
      simp [hd8, hdge8, hdlt, hds]
    · have hds : decide (i ≥ s) = true := by
        simp only [decide_eq_true_eq]; omega
      have hcf : c.testBit i = false := testBit_of_lt_pow hc his
      have hvs : decide (i - s ≥ 8) = false := by
        simp only [decide_eq_false_iff_not]; omega
      simp [hd8, hdge8, hdlt, hds, hcf, hvs]
  · have hd8 : decide (i < 8) = false := by
      simp only [decide_eq_false_iff_not]; omega
    have hdge8 : decide (i ≥ 8) = true := by
      simp only [decide_eq_true_eq]; omega
    have hds : decide (i ≥ s) = true := by
      simp only [decide_eq_true_eq]; omega
    have hcf : c.testBit i = false := testBit_of_lt_pow hc (by omega)
    have hdn : decide (i - 8 < 8 * n) = decide (i < 8 * (n + 1)) :=
      decide_eq_decide.mpr (by omega)
    have hidx : 8 - s + (i - 8) = i - s := by omega
    rcases Nat.lt_or_ge i (8 + s) with his | his
    · have hts : decide (i - 8 ≥ s) = false := by
        simp only [decide_eq_false_iff_not]; omega
      have hvs : decide (i - s ≥ 8) = false := by
        simp only [decide_eq_false_iff_not]; omega
      simp [hd8, hdge8, hds, hcf, hdn, hidx, hts, hvs]
    · have hts : decide (i - 8 ≥ s) = true := by
        simp only [decide_eq_true_eq]; omega
      have hvs : decide (i - s ≥ 8) = true := by
        simp only [decide_eq_true_eq]; omega
      have hbf : b.testBit (i - s) = false :=
        testBit_of_lt_pow (show b < 2 ^ 8 from h256 ▸ hbb) (by omega)
      have hidx2 : i - 8 - s = i - s - 8 := by omega
      simp [hd8, hdge8, hds, hcf, hdn, hidx, hts, hvs, hbf, hidx2]

theorem shiftRight_tail {b vt n s : Nat} (hbb : b < 256) (hn : 1 ≤ n) (hs : s ≤ 8) :
    (b ^^^ vt <<< 8) >>> (8 * (n + 1) - s) = vt >>> (8 * n - s) := by
  apply Nat.eq_of_testBit_eq
  intro t
  rw [Nat.testBit_shiftRight, Nat.testBit_shiftRight, Nat.testBit_xor, Nat.testBit_shiftLeft]
  have hbf : b.testBit (8 * (n + 1) - s + t) = false :=
    testBit_of_lt_pow (show b < 2 ^ 8 by norm_num; omega) (by omega)
  have hd : decide (8 * (n + 1) - s + t ≥ 8) = true := by
    simp only [decide_eq_true_eq]; omega
  rw [hbf, hd]
  simp only [Bool.true_and, Bool.false_xor]
  congr 1
  omega

theorem rotate_bytes_spec {s : Nat} (hs : s ≤ 8) (l : List Nat) :
    ∀ (c : Nat), (∀ x ∈ l, x < 256) → c < 2 ^ s →
      (rotate_bytes s c l).1.length = l.length ∧
      (∀ x ∈ (rotate_bytes s c l).1, x < 256) ∧
      blockVal (rotate_bytes s c l).1 = ((blockVal l <<< s) ||| c) % 2 ^ (8 * l.length) ∧
      (rotate_bytes s c l).2 =
        if l.length = 0 then c else blockVal l >>> (8 * l.length - s) := by
  induction l with
  | nil =>
    intro c hb hc
    refine ⟨rfl, by simp [rotate_bytes], ?_, by simp [rotate_bytes]⟩
    simp [rotate_bytes, blockVal_nil, Nat.mod_one]
  | cons b t ih =>
    intro c hb hc
    have hbb : b < 256 := hb b (by simp)
    have hbt : ∀ x ∈ t, x < 256 := fun x hx => hb x (by simp [hx])
    have htc0 : b >>> (8 - s) < 2 ^ s := by
      rw [Nat.shiftRight_eq_div_pow]
      rw [Nat.div_lt_iff_lt_mul (Nat.pos_pow_of_pos _ (by norm_num))]
      calc b < 256 := hbb
      _ = 2 ^ 8 := by norm_num
      _ = 2 ^ (s + (8 - s)) := by congr 1; omega
      _ = 2 ^ s * 2 ^ (8 - s) := by rw [Nat.pow_add]
    have htc_eq : (b >>> (8 - s)) % 256 = b >>> (8 - s) := by
      apply Nat.mod_eq_of_lt
      calc b >>> (8 - s) < 2 ^ s := htc0
      _ ≤ 2 ^ 8 := Nat.pow_le_pow_right (by norm_num) hs
      _ = 256 := by norm_num
    have htc : (b >>> (8 - s)) % 256 < 2 ^ s := by rw [htc_eq]; exact htc0
    obtain ⟨ihlen, ihbytes, ihval, ihcarry⟩ := ih ((b >>> (8 - s)) % 256) hbt htc
    refine ⟨?_, ?_, ?_, ?_⟩
    · simp only [rotate_bytes, List.length_cons, ihlen]
    · intro x hx
      simp only [rotate_bytes, List.mem_cons] at hx
      rcases hx with hx | hx
      · rw [hx]
        exact Nat.mod_lt _ (by norm_num)
      · exact ihbytes x hx
    · simp only [rotate_bytes, blockVal_cons]
      rw [ihval, htc_eq, List.length_cons]
      exact rotate_bytes_val_step hbb hc hs
    · simp only [rotate_bytes]
      rw [ihcarry]
      cases t with
      | nil =>
        have hb1 : blockVal [b] = b := by
          rw [blockVal_cons, blockVal_nil, Nat.zero_shiftLeft, Nat.xor_zero]
        simp [htc_eq, hb1]
      | cons b2 t2 =>
        rw [if_neg (by simp), if_neg (by simp)]
        have h1 : blockVal (b :: b2 :: t2) = b ^^^ blockVal (b2 :: t2) <<< 8 :=
          blockVal_cons b (b2 :: t2)
        have h2 : (b :: b2 :: t2).length = (b2 :: t2).length + 1 := List.length_cons _ _
        rw [h1, h2]
        exact (shiftRight_tail hbb (by rw [List.length_cons]; omega) hs).symm

theorem blockVal_head_or {x c : Nat} (hx : x < 256) (hc : c < 256) (xs : List Nat) :
    blockVal ((x ||| c) :: xs) = blockVal (x :: xs) ||| c := by
  apply Nat.eq_of_testBit_eq
  intro i
  rw [blockVal_cons, blockVal_cons]
  simp only [Nat.testBit_xor, Nat.testBit_lor, Nat.testBit_shiftLeft]
  rcases Nat.lt_or_ge i 8 with hi | hi
  · have hd : decide (i ≥ 8) = false := by
      simp only [decide_eq_false_iff_not]; omega
    simp [hd]
  · have hd : decide (i ≥ 8) = true := by
      simp only [decide_eq_true_eq]; omega
    have hxf : x.testBit i = false := testBit_of_lt_pow (show x < 2 ^ 8 by norm_num; omega) (by omega)
    have hcf : c.testBit i = false := testBit_of_lt_pow (show c < 2 ^ 8 by norm_num; omega) (by omega)
    have hof : (x ||| c).testBit i = false := by
      rw [Nat.testBit_lor, hxf, hcf]
      rfl
    simp [hd, hxf, hcf, hof]

theorem mod_lor_small {a b : Nat} (hb : b < 2 ^ 160) :
    (a % 2 ^ 160) ||| b = (a ||| b) % 2 ^ 160 := by
  apply Nat.eq_of_testBit_eq
  intro i
  simp only [Nat.testBit_lor, Nat.testBit_mod_two_pow]
  rcases Nat.lt_or_ge i 160 with hi | hi
  · have hd : decide (i < 160) = true := by
      simp only [decide_eq_true_eq]; omega
    simp [hd]
  · have hd : decide (i < 160) = false := by
      simp only [decide_eq_false_iff_not]; omega
    have hbf : b.testBit i = false := testBit_of_lt_pow hb hi
    simp [hd, hbf]

theorem rotate_block_val {l : List Nat} {s : Nat} (hl : l.length = BYTES_PER_BLOCK)
    (hb : ∀ x ∈ l, x < 256) (hs : s ≤ 8) :
    blockVal (rotate_block l s) = rotate (blockVal l) s := by
  obtain ⟨hlen, hbytes, hval, hcarry⟩ :=
    rotate_bytes_spec hs l 0 hb (Nat.pos_pow_of_pos _ (by norm_num))
  have h160 : 8 * l.length = 160 := by
    rw [hl]
    rfl
  have hne : l.length ≠ 0 := by
    rw [hl]
    decide
  unfold rotate_block
  rcases hR : (rotate_bytes s 0 l).1 with _ | ⟨x, xs⟩
  · exfalso
    rw [hR] at hlen
    simp at hlen
    omega
  · simp only [hR]
    have hx256 : x < 256 := hbytes x (by rw [hR]; simp)
    have hvl : blockVal l < 2 ^ 160 := by
      have := blockVal_lt hb
      rwa [h160] at this
    have hcarry_lt : (rotate_bytes s 0 l).2 < 2 ^ s := by
      rw [hcarry, if_neg hne, h160, Nat.shiftRight_eq_div_pow]
      rw [Nat.div_lt_iff_lt_mul (Nat.pos_pow_of_pos _ (by norm_num))]
      calc blockVal l < 2 ^ 160 := hvl
      _ = 2 ^ (s + (160 - s)) := by congr 1; omega
      _ = 2 ^ s * 2 ^ (160 - s) := by rw [Nat.pow_add]
    have hcarry256 : (rotate_bytes s 0 l).2 < 256 := by
      calc (rotate_bytes s 0 l).2 < 2 ^ s := hcarry_lt
      _ ≤ 2 ^ 8 := Nat.pow_le_pow_right (by norm_num) hs
      _ = 256 := by norm_num
    rw [blockVal_head_or hx256 hcarry256 xs, ← hR, hval, hcarry, if_neg hne, h160]
    rw [Nat.or_zero]
    have hsr_lt : blockVal l >>> (160 - s) < 2 ^ 160 := by
      calc blockVal l >>> (160 - s) < 2 ^ s := by
            rw [Nat.shiftRight_eq_div_pow]
            rw [Nat.div_lt_iff_lt_mul (Nat.pos_pow_of_pos _ (by norm_num))]
            calc blockVal l < 2 ^ 160 := hvl
            _ = 2 ^ (s + (160 - s)) := by congr 1; omega
            _ = 2 ^ s * 2 ^ (160 - s) := by rw [Nat.pow_add]
      _ ≤ 2 ^ 160 := Nat.pow_le_pow_right (by norm_num) (by omega)
    rw [mod_lor_small hsr_lt]
    unfold rotate
    rw [Nat.mod_eq_of_lt (show s < 160 by omega)]

/-
Preservation lemmas for the block operations, and closed forms for the length
block and the pseudocode `reverse`.
-/

theorem rotate_block_length {l : List Nat} {s : Nat} (hs : s ≤ 8) (hb : ∀ x ∈ l, x < 256) :
    (rotate_block l s).length = l.length := by
  obtain ⟨hlen, hbytes, _, _⟩ :=
    rotate_bytes_spec hs l 0 hb (Nat.pos_pow_of_pos _ (by norm_num))
  unfold rotate_block
  rcases hR : (rotate_bytes s 0 l).1 with _ | ⟨x, xs⟩
  · simp only [hR]
    rw [hR] at hlen
    exact hlen
  · simp only [hR]
    rw [hR] at hlen
    simpa using hlen

theorem rotate_block_bytes {l : List Nat} {s : Nat} (hs : s ≤ 8) (hb : ∀ x ∈ l, x < 256) :
    ∀ y ∈ rotate_block l s, y < 256 := by
  obtain ⟨hlen, hbytes, hval, hcarry⟩ :=
    rotate_bytes_spec hs l 0 hb (Nat.pos_pow_of_pos _ (by norm_num))
  have e8 : (2 : Nat) ^ 8 = 256 := by norm_num
  have hc256 : (rotate_bytes s 0 l).2 < 256 := by
    rw [hcarry]
    by_cases h0 : l.length = 0
    · rw [if_pos h0]
      norm_num
    · rw [if_neg h0]
      have hvl := blockVal_lt hb
      have hsr : blockVal l >>> (8 * l.length - s) < 2 ^ s := by
        rw [Nat.shiftRight_eq_div_pow]
        rw [Nat.div_lt_iff_lt_mul (Nat.pos_pow_of_pos _ (by norm_num))]
        calc blockVal l < 2 ^ (8 * l.length) := hvl
        _ = 2 ^ (s + (8 * l.length - s)) := by congr 1; omega
        _ = 2 ^ s * 2 ^ (8 * l.length - s) := by rw [Nat.pow_add]
      calc blockVal l >>> (8 * l.length - s) < 2 ^ s := hsr
      _ ≤ 2 ^ 8 := Nat.pow_le_pow_right (by norm_num) hs
      _ = 256 := by norm_num
  unfold rotate_block
  rcases hR : (rotate_bytes s 0 l).1 with _ | ⟨x, xs⟩
  · simp only [hR]
    intro y hy
    simp at hy
  · simp only [hR]
    intro y hy
    rcases List.mem_cons.mp hy with hy | hy
    · rw [hy]
      have hx : x < 2 ^ 8 := by
        rw [e8]
        exact hbytes x (by rw [hR]; simp)
      have hc : (rotate_bytes s 0 l).2 < 2 ^ 8 := by
        rw [e8]
        exact hc256
      have := lor_lt_two_pow hx hc
      rwa [e8] at this
    · exact hbytes y (by rw [hR]; simp [hy])

theorem xor_block_length (a b : List Nat) : (xor_block a b).length = min a.length b.length := by
  unfold xor_block
  exact List.length_zipWith _ _ _

theorem xor_block_bytes : ∀ (a b : List Nat), (∀ x ∈ a, x < 256) → (∀ x ∈ b, x < 256) →
    ∀ y ∈ xor_block a b, y < 256 := by
  intro a
  induction a with
  | nil =>
    intro b ha hb y hy
    simp [xor_block] at hy
  | cons x ta ih =>
    intro b ha hb y hy
    cases b with
    | nil => simp [xor_block] at hy
    | cons z tb =>
      simp only [xor_block, List.zipWith_cons_cons, List.mem_cons] at hy
      rcases hy with hy | hy
      · rw [hy]
        have e8 : (2 : Nat) ^ 8 = 256 := by norm_num
        have h1 : x < 2 ^ 8 := by
          rw [e8]
          exact ha x (by simp)
        have h2 : z < 2 ^ 8 := by
          rw [e8]
          exact hb z (by simp)
        have := Nat.xor_lt_two_pow h1 h2
        rwa [e8] at this
      · exact ih tb (fun u hu => ha u (by simp [hu])) (fun u hu => hb u (by simp [hu])) y hy

theorem xor_block_val {a b : List Nat} (h : a.length = b.length) :
    blockVal (xor_block a b) = blockVal a ^^^ blockVal b :=
  blockVal_zipWith_xor h

theorem foldl_xor_eq_xorRange (n : Nat) (g : Nat → Nat) :
    (List.range n).foldl (fun acc j => acc ^^^ g j) 0 = xorRange n g := by
  suffices h : ∀ c, (List.range n).foldl (fun acc j => acc ^^^ g j) c = c ^^^ xorRange n g by
    have := h 0
    simpa using this
  induction n with
  | zero =>
    intro c
    simp [xorRange, xorList_nil]
  | succ m ih =>
    intro c
    rw [List.range_succ, List.foldl_append, ih, xorRange_succ]
    simp [Nat.xor_assoc]

theorem xorRange_reindex {n : Nat} {g : Nat → Nat} (f : Nat → Nat)
    (hperm : ((List.range n).map g).Perm (List.range n)) :
    xorRange n (fun j => f (g j)) = xorRange n f := by
  have h1 : xorList ((List.range n).map g) f = xorList (List.range n) fun x => f (g x) :=
    xorList_map _ _ _
  have h2 := xorList_perm hperm f
  show xorList (List.range n) (fun j => f (g j)) = xorList (List.range n) f
  rw [← h1]
  exact h2

theorem length_block_val (c : Nat) : blockVal (length_block c) = extend64_be c := by
  have hsplit : length_block c =
      ((List.range 8).map fun j => (c >>> (8 * (7 - j))) % 256) ++ List.replicate 12 0 := by
    rfl
  rw [hsplit, blockVal_append]
  rw [show blockVal (List.replicate 12 0) = 0 from rfl, Nat.zero_shiftLeft, Nat.xor_zero]
  rw [blockVal_map_range]
  unfold extend64_be
  rw [foldl_xor_eq_xorRange]
  have hre := xorRange_reindex (n := 8) (g := fun j => 7 - j)
    (f := fun k => ((c >>> (8 * k)) % 256) <<< (8 * (7 - k))) (by decide)
  rw [← hre]
  apply xorRange_congr
  intro j hj
  have h7 : 7 - (7 - j) = j := by omega
  simp only [h7]

theorem reverse_eq_xorRange (bl : Nat) :
    reverse bl = xorRange 20 (fun j => ((bl >>> (8 * j)) % 256) <<< (8 * (19 - j))) :=
  foldl_xor_eq_xorRange 20 _

theorem reverse_blockVal {l : List Nat} (hl : l.length = 20) (hb : ∀ x ∈ l, x < 256) :
    blockVal l.reverse = reverse (blockVal l) := by
  rw [reverse_eq_xorRange]
  have h1 := blockVal_eq_xorRange l.reverse
  have hlr : l.reverse.length = 20 := by simp [hl]
  rw [h1, hlr]
  have h2 : ∀ q, q < 20 → l.reverse.getD q 0 = l.getD (19 - q) 0 := by
    intro q hq
    have hq1 : q < l.reverse.length := by omega
    have hq2 : 19 - q < l.length := by omega
    rw [List.getD_eq_getElem _ _ hq1, List.getD_eq_getElem _ _ hq2, List.getElem_reverse]
    congr 1
    omega
  have hstep1 : xorRange 20 (fun q => l.reverse.getD q 0 <<< (8 * q)) =
      xorRange 20 (fun q => l.getD (19 - q) 0 <<< (8 * q)) := by
    apply xorRange_congr
    intro j hj
    rw [h2 j hj]
  rw [hstep1]
  have hstep2 : xorRange 20 (fun j => ((blockVal l >>> (8 * j)) % 256) <<< (8 * (19 - j))) =
      xorRange 20 (fun j => l.getD j 0 <<< (8 * (19 - j))) := by
    apply xorRange_congr
    intro j hj
    rw [blockVal_byte hb]
  rw [hstep2]
  have hre := xorRange_reindex (n := 20) (g := fun j => 19 - j)
    (f := fun j => l.getD j 0 <<< (8 * (19 - j))) (by decide)
  rw [← hre]
  apply xorRange_congr
  intro j hj
  have h19 : 19 - (19 - j) = j := by omega
  simp only [h19]

/-
Characterization of the Accumulation stage: the loop terminates with the
64-bit counter equal to the total input length mod 2^64, and accumulator byte
`j` equal to the XOR of the input bytes at positions congruent to `j` mod 160.
-/

theorem getD_replicate_zero (n k : Nat) : (List.replicate n (0 : Nat)).getD k 0 = 0 := by
  rcases Nat.lt_or_ge k n with hk | hk
  · have hk2 : k < (List.replicate n (0 : Nat)).length := by simpa using hk
    rw [List.getD_eq_getElem _ _ hk2, List.getElem_replicate]
  · rw [List.getD_eq_default]
    simpa using hk

theorem getD_zipWith_xor {a b : List Nat} {j : Nat} (hja : j < a.length) (hjb : j < b.length) :
    (List.zipWith (fun x y => x ^^^ y) a b).getD j 0 = a.getD j 0 ^^^ b.getD j 0 := by
  have hj : j < (List.zipWith (fun x y => x ^^^ y) a b).length := by
    rw [List.length_zipWith]
    exact lt_min hja hjb
  rw [List.getD_eq_getElem _ _ hj, List.getElem_zipWith, List.getD_eq_getElem _ _ hja,
    List.getD_eq_getElem _ _ hjb]

theorem input_data_length (input : List Nat) :
    (input.take BLOCK_UNIT_SIZE ++
      List.replicate (BLOCK_UNIT_SIZE - (input.take BLOCK_UNIT_SIZE).length) 0).length =
    BLOCK_UNIT_SIZE := by
  rw [List.length_append, List.length_replicate, List.length_take]
  have h1 : BLOCK_UNIT_SIZE ⊓ input.length ≤ BLOCK_UNIT_SIZE := min_le_left _ _
  omega

theorem getD_input_data (input : List Nat) {j : Nat} (hj : j < BLOCK_UNIT_SIZE) :
    (input.take BLOCK_UNIT_SIZE ++
      List.replicate (BLOCK_UNIT_SIZE - (input.take BLOCK_UNIT_SIZE).length) 0).getD j 0 =
    input.getD j 0 := by
  have htl : (input.take BLOCK_UNIT_SIZE).length = BLOCK_UNIT_SIZE ⊓ input.length :=
    List.length_take _ _
  rcases Nat.lt_or_ge j (input.take BLOCK_UNIT_SIZE).length with hjt | hjt
  · rw [List.getD_append _ _ _ _ hjt]
    have hjl : j < input.length := by
      rw [htl] at hjt
      exact lt_of_lt_of_le hjt (min_le_right _ _)
    rw [List.getD_eq_getElem _ _ hjt, List.getD_eq_getElem _ _ hjl]
    exact List.getElem_take _
  · rw [List.getD_append_right _ _ _ _ hjt, getD_replicate_zero]
    have hjl : input.length ≤ j := by
      rw [htl] at hjt
      rcases Nat.le_total input.length BLOCK_UNIT_SIZE with hc | hc
      · rwa [min_eq_right hc] at hjt
      · rw [min_eq_left hc] at hjt
        omega
    rw [List.getD_eq_default _ _ hjl]

theorem accByte_nil (j : Nat) : accByte j [] = 0 := by
  rw [accByte]

theorem accByte_cons (j b : Nat) (t : List Nat) :
    accByte j (b :: t) = (b :: t).getD j 0 ^^^ accByte j ((b :: t).drop BLOCK_UNIT_SIZE) := by
  rw [accByte]

theorem accByte_eq {l : List Nat} (h : l ≠ []) (j : Nat) :
    accByte j l = l.getD j 0 ^^^ accByte j (l.drop BLOCK_UNIT_SIZE) := by
  cases l with
  | nil => exact absurd rfl h
  | cons b t => exact accByte_cons j b t

theorem accByte_lt :
    ∀ (N : Nat) (input : List Nat), input.length ≤ N → (∀ x ∈ input, x < 256) →
      ∀ j, accByte j input < 256 := by
  intro N
  induction N with
  | zero =>
    intro input hN hb j
    have hinput : input = [] := List.length_eq_zero.mp (by omega)
    subst hinput
    rw [accByte_nil]
    norm_num
  | succ N ih =>
    intro input hN hb j
    cases input with
    | nil =>
      rw [accByte_nil]
      norm_num
    | cons b t =>
      rw [accByte_cons]
      have e8 : (2 : Nat) ^ 8 = 256 := by norm_num
      have h1 : (b :: t).getD j 0 < 2 ^ 8 := by
        rw [e8]
        exact getD_lt_256 hb j
      have h2 : accByte j ((b :: t).drop BLOCK_UNIT_SIZE) < 2 ^ 8 := by
        rw [e8]
        apply ih ((b :: t).drop BLOCK_UNIT_SIZE)
        · rw [List.length_drop]
          have hpos : 0 < BLOCK_UNIT_SIZE := by decide
          simp only [List.length_cons] at hN ⊢
          omega
        · intro x hx
          exact hb x (List.mem_of_mem_drop hx)
      have := Nat.xor_lt_two_pow h1 h2
      rwa [e8] at this

theorem accumulate_loop_short {input hash_data : List Nat} {count : Nat}
    (hshort : input.length < BLOCK_UNIT_SIZE) :
    accumulate_loop input hash_data count =
      (List.zipWith (fun a b => a ^^^ b) hash_data
        (input.take BLOCK_UNIT_SIZE ++
          List.replicate (BLOCK_UNIT_SIZE - (input.take BLOCK_UNIT_SIZE).length) 0),
       (count + (input.take BLOCK_UNIT_SIZE).length) % 2 ^ 64) := by
  rw [accumulate_loop]
  simp only [dif_neg (show ¬ BLOCK_UNIT_SIZE ≤ input.length by omega)]

theorem accumulate_loop_step {input hash_data : List Nat} {count : Nat}
    (hlong : BLOCK_UNIT_SIZE ≤ input.length) :
    accumulate_loop input hash_data count =
      accumulate_loop (input.drop BLOCK_UNIT_SIZE)
        (List.zipWith (fun a b => a ^^^ b) hash_data
          (input.take BLOCK_UNIT_SIZE ++
            List.replicate (BLOCK_UNIT_SIZE - (input.take BLOCK_UNIT_SIZE).length) 0))
        ((count + (input.take BLOCK_UNIT_SIZE).length) % 2 ^ 64) := by
  rw [accumulate_loop]
  simp only [dif_pos hlong]

theorem accumulate_base {input hash_data : List Nat} {count : Nat}
    (hshort : input.length < BLOCK_UNIT_SIZE) (hlen : hash_data.length = BLOCK_UNIT_SIZE) :
    (accumulate_loop input hash_data count).1.length = BLOCK_UNIT_SIZE ∧
    (accumulate_loop input hash_data count).2 = (count + input.length) % 2 ^ 64 ∧
    (∀ j, j < BLOCK_UNIT_SIZE →
      (accumulate_loop input hash_data count).1.getD j 0 =
        hash_data.getD j 0 ^^^ accByte j input) := by
  rw [accumulate_loop_short hshort]
  refine ⟨?_, ?_, ?_⟩
  · rw [List.length_zipWith, hlen, input_data_length]
    exact min_self _
  · have htake : (input.take BLOCK_UNIT_SIZE).length = input.length := by
      rw [List.length_take]
      exact min_eq_right (by omega)
    rw [htake]
  · intro j hj
    have hja : j < hash_data.length := by omega
    have hjb : j < (input.take BLOCK_UNIT_SIZE ++
        List.replicate (BLOCK_UNIT_SIZE - (input.take BLOCK_UNIT_SIZE).length) 0).length := by
      rw [input_data_length]
      omega
    rw [getD_zipWith_xor hja hjb, getD_input_data input hj]
    congr 1
    cases input with
    | nil =>
      rw [accByte_nil, List.getD_nil]
    | cons b t =>
      rw [accByte_cons]
      have hd : (b :: t).drop BLOCK_UNIT_SIZE = [] :=
        List.drop_eq_nil_of_le (by omega)
      rw [hd, accByte_nil, Nat.xor_zero]

theorem accumulate_loop_spec :
    ∀ (N : Nat) (input : List Nat), input.length ≤ N →
    ∀ (hash_data : List Nat) (count : Nat), hash_data.length = BLOCK_UNIT_SIZE →
      (accumulate_loop input hash_data count).1.length = BLOCK_UNIT_SIZE ∧
      (accumulate_loop input hash_data count).2 = (count + input.length) % 2 ^ 64 ∧
      (∀ j, j < BLOCK_UNIT_SIZE →
        (accumulate_loop input hash_data count).1.getD j 0 =
          hash_data.getD j 0 ^^^ accByte j input) := by
  intro N
  induction N with
  | zero =>
    intro input hN hash_data count hlen
    have hshort : input.length < BLOCK_UNIT_SIZE := by
      have hpos : 0 < BLOCK_UNIT_SIZE := by decide
      omega
    exact accumulate_base hshort hlen
  | succ N ih =>
    intro input hN hash_data count hlen
    rcases Nat.lt_or_ge input.length BLOCK_UNIT_SIZE with hshort | hlong
    · exact accumulate_base hshort hlen
    · rw [accumulate_loop_step hlong]
      have hne : input ≠ [] := by
        intro hnil
        rw [hnil] at hlong
        simp at hlong
        have hpos : 0 < BLOCK_UNIT_SIZE := by decide
        omega
      have hlen2 : (List.zipWith (fun a b => a ^^^ b) hash_data
          (input.take BLOCK_UNIT_SIZE ++
            List.replicate (BLOCK_UNIT_SIZE - (input.take BLOCK_UNIT_SIZE).length) 0)).length =
          BLOCK_UNIT_SIZE := by
        rw [List.length_zipWith, hlen, input_data_length]
        exact min_self _
      have hdroplen : (input.drop BLOCK_UNIT_SIZE).length ≤ N := by
        rw [List.length_drop]
        have hpos : 0 < BLOCK_UNIT_SIZE := by decide
        omega
      obtain ⟨h1, h2, h3⟩ := ih (input.drop BLOCK_UNIT_SIZE) hdroplen _ _ hlen2
      have htake : (input.take BLOCK_UNIT_SIZE).length = BLOCK_UNIT_SIZE := by
        rw [List.length_take]
        exact min_eq_left hlong
      refine ⟨h1, ?_, ?_⟩
      · rw [h2, List.length_drop, Nat.mod_add_mod, htake]
        congr 1
        omega
      · intro j hj
        rw [h3 j hj]
        have hja : j < hash_data.length := by omega
        have hjb : j < (input.take BLOCK_UNIT_SIZE ++
            List.replicate (BLOCK_UNIT_SIZE - (input.take BLOCK_UNIT_SIZE).length) 0).length := by
          rw [input_data_length]
          omega
        rw [getD_zipWith_xor hja hjb, getD_input_data input hj, accByte_eq hne j,
          Nat.xor_assoc]

theorem accumulate_spec (input : List Nat) :
    (accumulate_loop input (List.replicate BLOCK_UNIT_SIZE 0) 0).1.length = BLOCK_UNIT_SIZE ∧
    (accumulate_loop input (List.replicate BLOCK_UNIT_SIZE 0) 0).2 = input.length % 2 ^ 64 ∧
    (∀ j, j < BLOCK_UNIT_SIZE →
      (accumulate_loop input (List.replicate BLOCK_UNIT_SIZE 0) 0).1.getD j 0 =
        accByte j input) := by
  obtain ⟨h1, h2, h3⟩ :=
    accumulate_loop_spec input.length input (le_refl _) (List.replicate BLOCK_UNIT_SIZE 0) 0
      (by simp)
  refine ⟨h1, by simpa using h2, ?_⟩
  intro j hj
  rw [h3 j hj, getD_replicate_zero, Nat.zero_xor]

theorem accumulate_bytes (input : List Nat) (hb : ∀ x ∈ input, x < 256) :
    ∀ y ∈ (accumulate_loop input (List.replicate BLOCK_UNIT_SIZE 0) 0).1, y < 256 := by
  obtain ⟨h1, _, h3⟩ := accumulate_spec input
  intro y hy
  obtain ⟨j, hjlen, hjy⟩ := List.getElem_of_mem hy
  have hjB : j < BLOCK_UNIT_SIZE := by omega
  have := h3 j hjB
  rw [List.getD_eq_getElem _ _ hjlen] at this
  rw [← hjy, this]
  exact accByte_lt input.length input (le_refl _) hb j

/-
Closed form of the Bit Scatter stage: the fold writes accumulator byte
`invp (8*q + k)` into block `k` at byte `q`, and `scatter = scatter_closed`.
-/

theorem set_map_range {α : Type} {m : Nat} (f : Nat → α) (j : Nat) (v : α) :
    ((List.range m).map f).set j v =
      (List.range m).map (fun x => if x = j then v else f x) := by
  apply List.ext_getElem
  · simp
  · intro n h1 h2
    simp only [List.getElem_set, List.getElem_map, List.getElem_range]
    by_cases h : j = n
    · simp [h]
    · rw [if_neg h, if_neg (fun hh => h hh.symm)]

theorem invp_dest : ∀ n, n < 160 → invp (n * 11 % BLOCK_UNIT_SIZE) = n := by decide

theorem dest_invp : ∀ s, s < 160 → invp s * 11 % BLOCK_UNIT_SIZE = s := by decide

theorem invp_lt : ∀ s, invp s < 160 := by
  intro s
  exact Nat.mod_lt _ (by decide)

theorem scatter_fold_invariant (hd : List Nat) :
    ∀ n, n ≤ BLOCK_UNIT_SIZE →
      (List.range n).foldl (scatter_step hd)
          (List.replicate 8 (List.replicate BYTES_PER_BLOCK 0)) =
      (List.range 8).map (fun k => (List.range BYTES_PER_BLOCK).map
        (fun q => if invp (8 * q + k) < n then hd.getD (invp (8 * q + k)) 0 else 0)) := by
  intro n
  induction n with
  | zero =>
    intro hn
    rw [List.range_zero, List.foldl_nil]
    apply List.ext_getElem
    · simp
    · intro k h1 h2
      simp only [List.getElem_replicate, List.getElem_map, List.getElem_range]
      apply List.ext_getElem
      · simp
      · intro q g1 g2
        simp only [List.getElem_replicate, List.getElem_map, List.getElem_range]
        rw [if_neg (by omega)]
  | succ n ih =>
    intro hn
    rw [List.range_succ, List.foldl_append, ih (by omega), List.foldl_cons, List.foldl_nil]
    have hB : (BLOCK_UNIT_SIZE : Nat) = 160 := rfl
    have hp : n * 11 % BLOCK_UNIT_SIZE < 160 := by
      rw [hB]
      exact Nat.mod_lt _ (by norm_num)
    have hn160 : n < 160 := by omega
    have hk8 : n * 11 % BLOCK_UNIT_SIZE % 8 < 8 := Nat.mod_lt _ (by norm_num)
    have hq20 : n * 11 % BLOCK_UNIT_SIZE / 8 < BYTES_PER_BLOCK := by
      have : BYTES_PER_BLOCK = 20 := rfl
      omega
    have hsum : 8 * (n * 11 % BLOCK_UNIT_SIZE / 8) + n * 11 % BLOCK_UNIT_SIZE % 8 =
        n * 11 % BLOCK_UNIT_SIZE := Nat.div_add_mod _ 8
    simp only [scatter_step]
    have hklen : n * 11 % BLOCK_UNIT_SIZE % 8 <
        ((List.range 8).map (fun k => (List.range BYTES_PER_BLOCK).map
          (fun q => if invp (8 * q + k) < n then hd.getD (invp (8 * q + k)) 0 else 0))).length := by
      simp [hk8]
    rw [List.getD_eq_getElem _ _ hklen, List.getElem_map, List.getElem_range,
      set_map_range, set_map_range]
    apply List.map_congr_left
    intro k hk
    have hk8' : k < 8 := List.mem_range.mp hk
    by_cases hkk : k = n * 11 % BLOCK_UNIT_SIZE % 8
    · rw [if_pos hkk]
      apply List.map_congr_left
      intro q hq
      have hq20' : q < BYTES_PER_BLOCK := List.mem_range.mp hq
      by_cases hqq : q = n * 11 % BLOCK_UNIT_SIZE / 8
      · rw [if_pos hqq, hkk, hqq, hsum, invp_dest n hn160, if_pos (by omega)]
      · rw [if_neg hqq, hkk]
        have hs160 : 8 * q + n * 11 % BLOCK_UNIT_SIZE % 8 < 160 := by
          have : BYTES_PER_BLOCK = 20 := rfl
          omega
        have hinvne : invp (8 * q + n * 11 % BLOCK_UNIT_SIZE % 8) ≠ n := by
          intro heq
          have := dest_invp (8 * q + n * 11 % BLOCK_UNIT_SIZE % 8) hs160
          rw [heq] at this
          apply hqq
          omega
        by_cases hlt : invp (8 * q + n * 11 % BLOCK_UNIT_SIZE % 8) < n
        · rw [if_pos hlt, if_pos (by omega)]
        · rw [if_neg hlt, if_neg (by omega)]
    · rw [if_neg hkk]
      apply List.map_congr_left
      intro q hq
      have hq20' : q < BYTES_PER_BLOCK := List.mem_range.mp hq
      have hs160 : 8 * q + k < 160 := by
        have : BYTES_PER_BLOCK = 20 := rfl
        omega
      have hinvne : invp (8 * q + k) ≠ n := by
        intro heq
        have := dest_invp (8 * q + k) hs160
        rw [heq] at this
        apply hkk
        omega
      by_cases hlt : invp (8 * q + k) < n
      · rw [if_pos hlt, if_pos (by omega)]
      · rw [if_neg hlt, if_neg (by omega)]

theorem scatter_eq (hd : List Nat) : scatter hd = scatter_closed hd := by
  unfold scatter scatter_closed
  rw [scatter_fold_invariant hd BLOCK_UNIT_SIZE (le_refl _)]
  apply List.map_congr_left
  intro k hk
  apply List.map_congr_left
  intro q hq
  have hs160 : 8 * q + k < 160 := by
    have h1 : k < 8 := List.mem_range.mp hk
    have h2 : q < BYTES_PER_BLOCK := List.mem_range.mp hq
    have : BYTES_PER_BLOCK = 20 := rfl
    omega
  rw [if_pos]
  have := invp_lt (8 * q + k)
  have hB : (BLOCK_UNIT_SIZE : Nat) = 160 := rfl
  omega

/-
The Rotate-and-Combine stage: `combine` computes the XOR of the 8 block values,
block `k` rotated left by `k` bits.
-/

theorem xorRange_lt {n : Nat} {f : Nat → Nat} (h : ∀ j < n, f j < 2 ^ 160) :
    xorRange n f < 2 ^ 160 := by
  induction n with
  | zero =>
    have : xorRange 0 f = 0 := rfl
    rw [this]
    norm_num
  | succ m ih =>
    rw [xorRange_succ]
    exact Nat.xor_lt_two_pow (ih (fun j hj => h j (by omega))) (h m (by omega))

theorem rotate_xorRange {n k : Nat} {f : Nat → Nat} (h : ∀ j < n, f j < 2 ^ 160) :
    rotate (xorRange n f) k = xorRange n (fun j => rotate (f j) k) := by
  induction n with
  | zero =>
    have h0 : xorRange 0 f = 0 := rfl
    have h1 : xorRange 0 (fun j => rotate (f j) k) = 0 := rfl
    rw [h0, h1, rotate_zero_val]
  | succ m ih =>
    rw [xorRange_succ, xorRange_succ,
      rotate_xor_distrib (xorRange_lt (fun j hj => h j (by omega))) (h m (by omega)),
      ih (fun j hj => h j (by omega))]

theorem xorList_flatMap (l : List Nat) (g : Nat → List Nat) (f : Nat → Nat) :
    xorList (l.flatMap g) f = xorList l (fun k => xorList (g k) f) := by
  induction l with
  | nil => rfl
  | cons a t ih =>
    rw [List.flatMap_cons, xorList_append, xorList_cons, ih]

theorem combine_fold_val (blocks : List (List Nat)) :
    ∀ (idxs : List Nat) (B : List Nat),
      B.length = BYTES_PER_BLOCK → (∀ x ∈ B, x < 256) →
      (∀ i ∈ idxs, i ≤ 8 ∧ (blocks.getD i []).length = BYTES_PER_BLOCK ∧
        (∀ x ∈ blocks.getD i [], x < 256)) →
      blockVal (idxs.foldl
          (fun bl i => xor_block bl (rotate_block (blocks.getD i []) i)) B) =
        blockVal B ^^^ xorList idxs (fun i => rotate (blockVal (blocks.getD i [])) i) := by
  intro idxs
  induction idxs with
  | nil =>
    intro B hBlen hBb hidx
    rw [List.foldl_nil, xorList_nil, Nat.xor_zero]
  | cons i rest ih =>
    intro B hBlen hBb hidx
    obtain ⟨hi8, hilen, hib⟩ := hidx i (by simp)
    have hrest : ∀ x ∈ rest, x ≤ 8 ∧ (blocks.getD x []).length = BYTES_PER_BLOCK ∧
        (∀ y ∈ blocks.getD x [], y < 256) := fun x hx => hidx x (by simp [hx])
    rw [List.foldl_cons]
    have hrlen : (rotate_block (blocks.getD i []) i).length = BYTES_PER_BLOCK := by
      rw [rotate_block_length hi8 hib, hilen]
    have hrb : ∀ x ∈ rotate_block (blocks.getD i []) i, x < 256 :=
      rotate_block_bytes hi8 hib
    have hxlen : (xor_block B (rotate_block (blocks.getD i []) i)).length =
        BYTES_PER_BLOCK := by
      rw [xor_block_length, hBlen, hrlen]
      exact min_self _
    have hxb : ∀ x ∈ xor_block B (rotate_block (blocks.getD i []) i), x < 256 :=
      xor_block_bytes _ _ hBb hrb
    rw [ih _ hxlen hxb hrest]
    rw [xor_block_val (by rw [hBlen, hrlen])]
    rw [rotate_block_val hilen hib hi8]
    rw [xorList_cons, Nat.xor_assoc]

theorem combine_val {blocks : List (List Nat)}
    (hblen : ∀ k, k < 8 → (blocks.getD k []).length = BYTES_PER_BLOCK)
    (hbytes : ∀ k, k < 8 → ∀ x ∈ blocks.getD k [], x < 256) :
    blockVal (combine blocks) =
      xorRange 8 (fun k => rotate (blockVal (blocks.getD k [])) k) := by
  unfold combine
  have h0len : (blocks.getD 0 []).length = BYTES_PER_BLOCK := hblen 0 (by norm_num)
  have h0b : ∀ x ∈ blocks.getD 0 [], x < 256 := hbytes 0 (by norm_num)
  have hidx : ∀ i ∈ List.range' 1 7, i ≤ 8 ∧ (blocks.getD i []).length = BYTES_PER_BLOCK ∧
      (∀ x ∈ blocks.getD i [], x < 256) := by
    intro i hi
    have hmem : i ∈ [1, 2, 3, 4, 5, 6, 7] := hi
    have hi8 : 1 ≤ i ∧ i ≤ 7 := by
      simp only [List.mem_cons, List.not_mem_nil, or_false] at hmem
      rcases hmem with h | h | h | h | h | h | h <;> omega
    exact ⟨by omega, hblen i (by omega), hbytes i (by omega)⟩
  rw [combine_fold_val blocks (List.range' 1 7) (blocks.getD 0 []) h0len h0b hidx]
  have hsplit := xorRange_split 1 7 (fun k => rotate (blockVal (blocks.getD k [])) k)
  have h17 : (1 + 7 : Nat) = 8 := rfl
  rw [h17] at hsplit
  rw [hsplit]
  have h1 : xorRange 1 (fun k => rotate (blockVal (blocks.getD k [])) k) =
      blockVal (blocks.getD 0 []) := by
    have hx : xorRange 1 (fun k => rotate (blockVal (blocks.getD k [])) k) =
        rotate (blockVal (blocks.getD 0 [])) 0 ^^^ 0 := rfl
    rw [hx, Nat.xor_zero]
    apply rotate_zero_rot
    have := blockVal_lt h0b
    rw [h0len] at this
    calc blockVal (blocks.getD 0 []) < 2 ^ (8 * BYTES_PER_BLOCK) := this
    _ = 2 ^ 160 := by norm_num [BYTES_PER_BLOCK]
  rw [h1]

/-
The scatter-and-combine composition: feeding the scattered blocks through
Rotate-and-Combine produces the XOR over all 160 accumulator bytes, byte `j`
rotated left by `j * 11 mod 160` bits.
-/

theorem scatter_closed_getD {hd : List Nat} {k : Nat} (hk : k < 8) :
    (scatter_closed hd).getD k [] =
      (List.range BYTES_PER_BLOCK).map (fun q => hd.getD (invp (8 * q + k)) 0) := by
  unfold scatter_closed
  have hklen : k < ((List.range 8).map (fun k => (List.range BYTES_PER_BLOCK).map
      (fun q => hd.getD (invp (8 * q + k)) 0))).length := by
    simp [hk]
  rw [List.getD_eq_getElem _ _ hklen, List.getElem_map, List.getElem_range]

theorem combined_val {hd : List Nat} (hdb : ∀ x ∈ hd, x < 256) :
    blockVal (combine (scatter hd)) =
      xorRange 160 (fun j => rotate (hd.getD j 0) (j * 11 % BLOCK_UNIT_SIZE)) := by
  rw [scatter_eq]
  have hblen : ∀ k, k < 8 → ((scatter_closed hd).getD k []).length = BYTES_PER_BLOCK := by
    intro k hk
    rw [scatter_closed_getD hk]
    simp
  have hbytes : ∀ k, k < 8 → ∀ x ∈ (scatter_closed hd).getD k [], x < 256 := by
    intro k hk x hx
    rw [scatter_closed_getD hk] at hx
    obtain ⟨q, hq, hqx⟩ := List.mem_map.mp hx
    rw [← hqx]
    exact getD_lt_256 hdb _
  rw [combine_val hblen hbytes]
  have hstep1 : ∀ k, k < 8 →
      rotate (blockVal ((scatter_closed hd).getD k [])) k =
        xorRange BYTES_PER_BLOCK (fun q => rotate (hd.getD (invp (8 * q + k)) 0) (8 * q + k)) := by
    intro k hk
    rw [scatter_closed_getD hk, blockVal_map_range]
    have hbound : ∀ q, q < BYTES_PER_BLOCK →
        hd.getD (invp (8 * q + k)) 0 <<< (8 * q) < 2 ^ 160 := by
      intro q hq
      have hx : hd.getD (invp (8 * q + k)) 0 < 2 ^ 8 := by
        have := getD_lt_256 hdb (invp (8 * q + k))
        omega
      calc hd.getD (invp (8 * q + k)) 0 <<< (8 * q) < 2 ^ (8 + 8 * q) :=
            Nat.shiftLeft_lt hx
      _ ≤ 2 ^ 160 := Nat.pow_le_pow_right (by norm_num)
            (by have : BYTES_PER_BLOCK = 20 := rfl; omega)
    rw [rotate_xorRange hbound]
    apply xorRange_congr
    intro q hq
    have hq20 : q < 20 := by
      have : BYTES_PER_BLOCK = 20 := rfl
      omega
    rw [← rotate_of_small (getD_lt_256 hdb (invp (8 * q + k))) (show 8 * q ≤ 152 by omega)]
    rw [rotate_rotate (show hd.getD (invp (8 * q + k)) 0 < 2 ^ 160 by
      have := getD_lt_256 hdb (invp (8 * q + k))
      calc hd.getD (invp (8 * q + k)) 0 < 256 := this
      _ ≤ 2 ^ 160 := by norm_num)]
  have hstep1' : xorRange 8 (fun k => rotate (blockVal ((scatter_closed hd).getD k [])) k) =
      xorRange 8 (fun k =>
        xorRange BYTES_PER_BLOCK (fun q => rotate (hd.getD (invp (8 * q + k)) 0) (8 * q + k))) :=
    xorRange_congr (fun k hk => hstep1 k hk)
  rw [hstep1']
  have hflat : xorRange 8 (fun k =>
      xorRange BYTES_PER_BLOCK (fun q => rotate (hd.getD (invp (8 * q + k)) 0) (8 * q + k))) =
      xorList ((List.range 8).flatMap (fun k => (List.range BYTES_PER_BLOCK).map
        (fun q => 8 * q + k))) (fun p => rotate (hd.getD (invp p) 0) p) := by
    rw [xorList_flatMap]
    apply xorRange_congr
    intro k hk
    rw [xorList_map]
    rfl
  rw [hflat]
  have hperm : ((List.range 8).flatMap (fun k => (List.range BYTES_PER_BLOCK).map
      (fun q => 8 * q + k))).Perm (List.range 160) := by decide
  rw [xorList_perm hperm]
  have hre := xorRange_reindex (n := 160) (g := fun j => j * 11 % BLOCK_UNIT_SIZE)
    (f := fun p => rotate (hd.getD (invp p) 0) p) (by decide)
  show xorRange 160 (fun p => rotate (hd.getD (invp p) 0) p) = _
  rw [← hre]
  apply xorRange_congr
  intro j hj
  have hinv : invp (j * 11 % BLOCK_UNIT_SIZE) = j := invp_dest j hj
  simp only [hinv]

/-
Reference-side regrouping: the per-stream-byte XOR of rotated bytes equals the
per-accumulator-position XOR of rotated accumulated bytes.
-/

theorem getD_drop_zero (l : List Nat) (n t : Nat) :
    (l.drop n).getD t 0 = l.getD (n + t) 0 := by
  rcases Nat.lt_or_ge t (l.drop n).length with h | h
  · have h2 : n + t < l.length := by
      rw [List.length_drop] at h
      omega
    rw [List.getD_eq_getElem _ _ h, List.getD_eq_getElem _ _ h2, List.getElem_drop]
  · have h2 : l.length ≤ n + t := by
      rw [List.length_drop] at h
      omega
    rw [List.getD_eq_default _ _ h, List.getD_eq_default _ _ h2]

theorem rotate_mod (x n : Nat) : rotate x (n % 160) = rotate x n := by
  unfold rotate
  rw [Nat.mod_mod_of_dvd n (dvd_refl 160)]

theorem regroup :
    ∀ (N : Nat) (rgb : List Nat), rgb.length ≤ N → (∀ x ∈ rgb, x < 256) →
      xorRange rgb.length (fun i => rotate (rgb.getD i 0) (i * 11 % BLOCK_UNIT_SIZE)) =
      xorRange 160 (fun j => rotate (accByte j rgb) (j * 11 % BLOCK_UNIT_SIZE)) := by
  intro N
  induction N with
  | zero =>
    intro rgb hN hb
    have hnil : rgb = [] := List.length_eq_zero.mp (by omega)
    subst hnil
    have h1 : ∀ j, j < 160 → rotate (accByte j []) (j * 11 % BLOCK_UNIT_SIZE) = 0 := by
      intro j hj
      rw [accByte_nil, rotate_zero_val]
    rw [xorRange_congr h1, xorRange_zero_fun]
    rfl
  | succ N ih =>
    intro rgb hN hb
    have hB : (BLOCK_UNIT_SIZE : Nat) = 160 := rfl
    rcases Nat.lt_or_ge rgb.length 160 with hshort | hlong
    · have hacc : ∀ j, j < 160 →
          rotate (accByte j rgb) (j * 11 % BLOCK_UNIT_SIZE) =
          rotate (rgb.getD j 0) (j * 11 % BLOCK_UNIT_SIZE) := by
        intro j hj
        congr 1
        cases rgb with
        | nil => rw [accByte_nil, List.getD_nil]
        | cons b t =>
          rw [accByte_cons]
          have hd : (b :: t).drop BLOCK_UNIT_SIZE = [] :=
            List.drop_eq_nil_of_le (by rw [hB]; omega)
          rw [hd, accByte_nil, Nat.xor_zero]
      rw [xorRange_congr hacc]
      apply (xorRange_extend (by omega) ?_).symm
      intro j h1 h2
      rw [List.getD_eq_default _ _ (by omega), rotate_zero_val]
    · have hne : rgb ≠ [] := by
        intro hnil
        rw [hnil] at hlong
        simp at hlong
      have hL : rgb.length = 160 + (rgb.length - 160) := by omega
      rw [hL, xorRange_split, xorList_range']
      have htail : xorRange (rgb.length - 160)
          (fun t => rotate (rgb.getD (160 + t) 0) ((160 + t) * 11 % BLOCK_UNIT_SIZE)) =
          xorRange 160 (fun j => rotate (accByte j (rgb.drop 160))
            (j * 11 % BLOCK_UNIT_SIZE)) := by
        have hlen : (rgb.drop 160).length = rgb.length - 160 := List.length_drop _ _
        have hmod : ∀ t : Nat, (160 + t) * 11 % BLOCK_UNIT_SIZE = t * 11 % BLOCK_UNIT_SIZE := by
          intro t
          rw [hB]
          omega
        have hcong : ∀ t, t < rgb.length - 160 →
            rotate (rgb.getD (160 + t) 0) ((160 + t) * 11 % BLOCK_UNIT_SIZE) =
            rotate ((rgb.drop 160).getD t 0) (t * 11 % BLOCK_UNIT_SIZE) := by
          intro t ht
          rw [getD_drop_zero, hmod]
        rw [xorRange_congr hcong]
        have hdb : ∀ x ∈ rgb.drop 160, x < 256 := fun x hx => hb x (List.mem_of_mem_drop hx)
        have hdN : (rgb.drop 160).length ≤ N := by
          rw [hlen]
          omega
        have := ih (rgb.drop 160) hdN hdb
        rw [hlen] at this
        exact this
      rw [htail]
      have hhead : xorRange 160 (fun j => rotate (accByte j rgb) (j * 11 % BLOCK_UNIT_SIZE)) =
          xorRange 160 (fun j => rotate (rgb.getD j 0) (j * 11 % BLOCK_UNIT_SIZE)) ^^^
          xorRange 160 (fun j => rotate (accByte j (rgb.drop 160))
            (j * 11 % BLOCK_UNIT_SIZE)) := by
        rw [← xorRange_xor]
        apply xorRange_congr
        intro j hj
        have hBdrop : rgb.drop BLOCK_UNIT_SIZE = rgb.drop 160 := by rw [hB]
        rw [accByte_eq hne j, hBdrop]
        apply rotate_xor_distrib
        · calc rgb.getD j 0 < 256 := getD_lt_256 hb j
          _ ≤ 2 ^ 160 := by norm_num
        · calc accByte j (rgb.drop 160) < 256 :=
              accByte_lt (rgb.drop 160).length _ (le_refl _)
                (fun x hx => hb x (List.mem_of_mem_drop hx)) j
          _ ≤ 2 ^ 160 := by norm_num
      rw [hhead]

/-
Combine-stage preservation (length and byte bounds of the combined block).
-/

theorem combine_fold_preserve (blocks : List (List Nat)) :
    ∀ (idxs : List Nat) (B : List Nat),
      B.length = BYTES_PER_BLOCK → (∀ x ∈ B, x < 256) →
      (∀ i ∈ idxs, i ≤ 8 ∧ (blocks.getD i []).length = BYTES_PER_BLOCK ∧
        (∀ x ∈ blocks.getD i [], x < 256)) →
      (idxs.foldl (fun bl i => xor_block bl (rotate_block (blocks.getD i []) i)) B).length =
          BYTES_PER_BLOCK ∧
      (∀ x ∈ idxs.foldl (fun bl i => xor_block bl (rotate_block (blocks.getD i []) i)) B,
        x < 256) := by
  intro idxs
  induction idxs with
  | nil =>
    intro B hBlen hBb hidx
    exact ⟨hBlen, hBb⟩
  | cons i rest ih =>
    intro B hBlen hBb hidx
    obtain ⟨hi8, hilen, hib⟩ := hidx i (by simp)
    have hrest : ∀ x ∈ rest, x ≤ 8 ∧ (blocks.getD x []).length = BYTES_PER_BLOCK ∧
        (∀ y ∈ blocks.getD x [], y < 256) := fun x hx => hidx x (by simp [hx])
    rw [List.foldl_cons]
    have hrlen : (rotate_block (blocks.getD i []) i).length = BYTES_PER_BLOCK := by
      rw [rotate_block_length hi8 hib, hilen]
    have hrb : ∀ x ∈ rotate_block (blocks.getD i []) i, x < 256 :=
      rotate_block_bytes hi8 hib
    have hxlen : (xor_block B (rotate_block (blocks.getD i []) i)).length =
        BYTES_PER_BLOCK := by
      rw [xor_block_length, hBlen, hrlen]
      exact min_self _
    have hxb : ∀ x ∈ xor_block B (rotate_block (blocks.getD i []) i), x < 256 :=
      xor_block_bytes _ _ hBb hrb
    exact ih _ hxlen hxb hrest

theorem combine_preserve {blocks : List (List Nat)}
    (hblen : ∀ k, k < 8 → (blocks.getD k []).length = BYTES_PER_BLOCK)
    (hbytes : ∀ k, k < 8 → ∀ x ∈ blocks.getD k [], x < 256) :
    (combine blocks).length = BYTES_PER_BLOCK ∧ (∀ x ∈ combine blocks, x < 256) := by
  unfold combine
  have hidx : ∀ i ∈ List.range' 1 7, i ≤ 8 ∧ (blocks.getD i []).length = BYTES_PER_BLOCK ∧
      (∀ x ∈ blocks.getD i [], x < 256) := by
    intro i hi
    have hmem : i ∈ [1, 2, 3, 4, 5, 6, 7] := hi
    have hi8 : 1 ≤ i ∧ i ≤ 7 := by
      simp only [List.mem_cons, List.not_mem_nil, or_false] at hmem
      rcases hmem with h | h | h | h | h | h | h <;> omega
    exact ⟨by omega, hblen i (by omega), hbytes i (by omega)⟩
  exact combine_fold_preserve blocks (List.range' 1 7) (blocks.getD 0 [])
    (hblen 0 (by norm_num)) (hbytes 0 (by norm_num)) hidx

/-
Full pipeline: the value of the digest produced by `quick_xor_hash`.
-/

theorem byte_mod_two_pow_64 {L k : Nat} (hk : k < 8) :
    ((L % 2 ^ 64) >>> (8 * k)) % 256 = (L >>> (8 * k)) % 256 := by
  have h256 : (256 : Nat) = 2 ^ 8 := by norm_num
  apply Nat.eq_of_testBit_eq
  intro t
  rw [h256, Nat.testBit_mod_two_pow, Nat.testBit_mod_two_pow, Nat.testBit_shiftRight,
    Nat.testBit_shiftRight, Nat.testBit_mod_two_pow]
  rcases Nat.lt_or_ge t 8 with ht | ht
  · have h1 : decide (t < 8) = true := by
      simp only [decide_eq_true_eq]
      omega
    have h2 : decide (8 * k + t < 64) = true := by
      simp only [decide_eq_true_eq]
      omega
    rw [h1, h2]
    simp
  · have h1 : decide (t < 8) = false := by
      simp only [decide_eq_false_iff_not]
      omega
    rw [h1]
    simp

theorem extend64_be_mod (L : Nat) : extend64_be (L % 2 ^ 64) = extend64_be L := by
  unfold extend64_be
  rw [foldl_xor_eq_xorRange, foldl_xor_eq_xorRange]
  apply xorRange_congr
  intro k hk
  rw [byte_mod_two_pow_64 hk]

theorem XorHash0_val {rgb : List Nat} (hb : ∀ x ∈ rgb, x < 256) :
    XorHash0 rgb =
      reverse (xorRange 160 (fun j => rotate (accByte j rgb) (j * 11 % BLOCK_UNIT_SIZE))) := by
  unfold XorHash0
  rw [foldl_xor_eq_xorRange]
  congr 1
  have hcong : ∀ i, i < rgb.length →
      rotate (extend8 (rgb.getD i 0)) (i * 11) =
      rotate (rgb.getD i 0) (i * 11 % BLOCK_UNIT_SIZE) := by
    intro i hi
    have he : extend8 (rgb.getD i 0) = rgb.getD i 0 := by
      unfold extend8
      exact Nat.mod_eq_of_lt (getD_lt_256 hb i)
    have hB : (BLOCK_UNIT_SIZE : Nat) = 160 := rfl
    rw [he, hB, rotate_mod]
  rw [xorRange_congr hcong]
  exact regroup rgb.length rgb (le_refl _) hb

theorem quick_xor_hash_val (input : List Nat) (hb : ∀ x ∈ input, x < 256) :
    blockVal (quick_xor_hash input) = XorHash_be input := by
  show blockVal (xor_block
      (reverse_block (combine (scatter
        (accumulate_loop input (List.replicate BLOCK_UNIT_SIZE 0) 0).1)))
      (length_block (accumulate_loop input (List.replicate BLOCK_UNIT_SIZE 0) 0).2)) =
    XorHash_be input
  obtain ⟨hlen, hcount, hgetD⟩ := accumulate_spec input
  have hAbytes : ∀ y ∈ (accumulate_loop input (List.replicate BLOCK_UNIT_SIZE 0) 0).1,
      y < 256 := accumulate_bytes input hb
  have hsblen : ∀ k, k < 8 →
      ((scatter (accumulate_loop input (List.replicate BLOCK_UNIT_SIZE 0) 0).1).getD k
        []).length = BYTES_PER_BLOCK := by
    intro k hk
    rw [scatter_eq, scatter_closed_getD hk]
    simp
  have hsbytes : ∀ k, k < 8 →
      ∀ x ∈ (scatter (accumulate_loop input (List.replicate BLOCK_UNIT_SIZE 0) 0).1).getD k
        [], x < 256 := by
    intro k hk x hx
    rw [scatter_eq, scatter_closed_getD hk] at hx
    obtain ⟨q, hq, hqx⟩ := List.mem_map.mp hx
    rw [← hqx]
    exact getD_lt_256 hAbytes _
  obtain ⟨hClen, hCbytes⟩ := combine_preserve hsblen hsbytes
  have hRBlen : (reverse_block (combine (scatter
      (accumulate_loop input (List.replicate BLOCK_UNIT_SIZE 0) 0).1))).length =
      BYTES_PER_BLOCK := by
    unfold reverse_block
    rw [List.length_reverse]
    exact hClen
  have hLBlen : (length_block
      (accumulate_loop input (List.replicate BLOCK_UNIT_SIZE 0) 0).2).length =
      BYTES_PER_BLOCK := rfl
  rw [xor_block_val (by rw [hRBlen, hLBlen])]
  unfold reverse_block
  rw [reverse_blockVal (by rw [hClen]; rfl) hCbytes]
  rw [length_block_val]
  have hCval := combined_val hAbytes
  rw [hCval]
  have hcong : ∀ j, j < 160 →
      rotate ((accumulate_loop input (List.replicate BLOCK_UNIT_SIZE 0) 0).1.getD j 0)
        (j * 11 % BLOCK_UNIT_SIZE) =
      rotate (accByte j input) (j * 11 % BLOCK_UNIT_SIZE) := by
    intro j hj
    rw [hgetD j (by rw [show (BLOCK_UNIT_SIZE : Nat) = 160 from rfl]; omega)]
  rw [xorRange_congr hcong]
  rw [← XorHash0_val hb]
  rw [hcount, extend64_be_mod]
  unfold XorHash_be
  exact Nat.xor_comm _ _

/-
Append-zeros invariance of the accumulator and injectivity of the length fold,
the two ingredients of the length-sensitivity claim C9.
-/

theorem accByte_replicate_zero : ∀ (N k j : Nat), k ≤ N →
    accByte j (List.replicate k 0) = 0 := by
  intro N
  induction N with
  | zero =>
    intro k j hk
    have hk0 : k = 0 := by omega
    subst hk0
    exact accByte_nil j
  | succ N ih =>
    intro k j hk
    cases k with
    | zero => exact accByte_nil j
    | succ m =>
      rw [List.replicate_succ, accByte_cons, ← List.replicate_succ]
      rw [getD_replicate_zero, List.drop_replicate]
      rw [ih (m + 1 - BLOCK_UNIT_SIZE) j (by
        have hpos : 0 < BLOCK_UNIT_SIZE := by decide
        omega)]
      rfl

theorem getD_append_zeros (x : List Nat) (k j : Nat) :
    (x ++ List.replicate k 0).getD j 0 = x.getD j 0 := by
  rcases Nat.lt_or_ge j x.length with hj | hj
  · exact List.getD_append _ _ _ _ hj
  · rw [List.getD_append_right _ _ _ _ hj, getD_replicate_zero, List.getD_eq_default _ _ hj]

theorem accByte_append_zeros : ∀ (N : Nat) (x : List Nat), x.length ≤ N → ∀ (k j : Nat),
    accByte j (x ++ List.replicate k 0) = accByte j x := by
  intro N
  induction N with
  | zero =>
    intro x hN k j
    have hx : x = [] := List.length_eq_zero.mp (by omega)
    subst hx
    rw [List.nil_append, accByte_nil, accByte_replicate_zero k k j (le_refl _)]
  | succ N ih =>
    intro x hN k j
    cases x with
    | nil =>
      rw [List.nil_append, accByte_nil, accByte_replicate_zero k k j (le_refl _)]
    | cons b t =>
      have hne : (b :: t) ++ List.replicate k 0 ≠ [] := by simp
      rw [accByte_eq hne j, accByte_cons, getD_append_zeros]
      congr 1
      rw [List.drop_append_eq_append_drop]
      have hB : (BLOCK_UNIT_SIZE : Nat) = 160 := rfl
      rcases Nat.le_total BLOCK_UNIT_SIZE (b :: t).length with hlong | hshort
      · have hz : BLOCK_UNIT_SIZE - (b :: t).length = 0 := by omega
        rw [hz, List.drop_zero]
        apply ih
        rw [List.length_drop]
        simp only [List.length_cons] at hN ⊢
        have hpos : 0 < BLOCK_UNIT_SIZE := by decide
        omega
      · have hz : (b :: t).drop BLOCK_UNIT_SIZE = [] := List.drop_eq_nil_of_le hshort
        rw [hz, List.nil_append, List.drop_replicate, accByte_nil,
          accByte_replicate_zero _ _ j (le_refl _)]

theorem eq_of_bytes64 {c1 c2 : Nat} (h1 : c1 < 2 ^ 64) (h2 : c2 < 2 ^ 64)
    (h : ∀ k, k < 8 → (c1 >>> (8 * k)) % 256 = (c2 >>> (8 * k)) % 256) : c1 = c2 := by
  apply Nat.eq_of_testBit_eq
  intro i
  rcases Nat.lt_or_ge i 64 with hi | hi
  · have hk : i / 8 < 8 := by omega
    have hbyte := congrArg (fun v => v.testBit (i % 8)) (h (i / 8) hk)
    simp only [] at hbyte
    have h256 : (256 : Nat) = 2 ^ 8 := by norm_num
    rw [h256, Nat.testBit_mod_two_pow, Nat.testBit_mod_two_pow, Nat.testBit_shiftRight,
      Nat.testBit_shiftRight] at hbyte
    have hd : decide (i % 8 < 8) = true := by
      simp only [decide_eq_true_eq]
      omega
    rw [hd, Bool.true_and, Bool.true_and] at hbyte
    have hidx : 8 * (i / 8) + i % 8 = i := by omega
    rwa [hidx] at hbyte
  · rw [testBit_of_lt_pow h1 hi, testBit_of_lt_pow h2 hi]

theorem length_block_bytes (c : Nat) : ∀ x ∈ length_block c, x < 256 := by
  have hsplit : length_block c =
      ((List.range 8).map fun j => (c >>> (8 * (7 - j))) % 256) ++ List.replicate 12 0 := rfl
  rw [hsplit]
  intro x hx
  rcases List.mem_append.mp hx with hx | hx
  · obtain ⟨j, hj, hjx⟩ := List.mem_map.mp hx
    rw [← hjx]
    exact Nat.mod_lt _ (by norm_num)
  · rw [List.eq_of_mem_replicate hx]
    norm_num

theorem extend64_be_inj {c1 c2 : Nat} (h1 : c1 < 2 ^ 64) (h2 : c2 < 2 ^ 64)
    (h : extend64_be c1 = extend64_be c2) : c1 = c2 := by
  apply eq_of_bytes64 h1 h2
  intro k hk
  have e1 := blockVal_byte (length_block_bytes c1) (7 - k)
  have e2 := blockVal_byte (length_block_bytes c2) (7 - k)
  rw [length_block_val] at e1 e2
  have hg1 : (length_block c1).getD (7 - k) 0 = (c1 >>> (8 * k)) % 256 := by
    interval_cases k <;> rfl
  have hg2 : (length_block c2).getD (7 - k) 0 = (c2 >>> (8 * k)) % 256 := by
    interval_cases k <;> rfl
  rw [hg1] at e1
  rw [hg2] at e2
  rw [← e1, ← e2, h]

theorem nat_xor_left_cancel {a b c : Nat} (h : a ^^^ b = a ^^^ c) : b = c := by
  have h2 := congrArg (fun y => a ^^^ y) h
  simpa [← Nat.xor_assoc, Nat.xor_self, Nat.zero_xor] using h2

theorem nat_xor_right_cancel {a b s : Nat} (h : a ^^^ s = b ^^^ s) : a = b := by
  have h2 := congrArg (fun y => y ^^^ s) h
  simpa [Nat.xor_assoc, Nat.xor_self, Nat.xor_zero] using h2

theorem XorHash0_append_zeros (x : List Nat) (k : Nat) (hb : ∀ b ∈ x, b < 256) :
    XorHash0 (x ++ List.replicate k 0) = XorHash0 x := by
  have hbz : ∀ b ∈ x ++ List.replicate k 0, b < 256 := by
    intro b hbm
    rcases List.mem_append.mp hbm with hbm | hbm
    · exact hb b hbm
    · rw [List.eq_of_mem_replicate hbm]
      norm_num
  rw [XorHash0_val hbz, XorHash0_val hb]
  congr 1
  apply xorRange_congr
  intro j hj
  rw [accByte_append_zeros (x ++ List.replicate k 0).length x
    (by rw [List.length_append]; omega) k j]

/-
Final shared facts.
-/

theorem xorRange_peel (n : Nat) (f : Nat → Nat) :
    xorRange (n + 1) f = f 0 ^^^ xorRange n (fun t => f (t + 1)) := by
  induction n with
  | zero =>
    rw [xorRange_succ]
    show (0 : Nat) ^^^ f 0 = f 0 ^^^ (0 : Nat)
    rw [Nat.zero_xor, Nat.xor_zero]
  | succ m ih =>
    rw [xorRange_succ, ih, xorRange_succ, Nat.xor_assoc]

theorem quick_xor_hash_nil : quick_xor_hash [] = List.replicate BYTES_PER_BLOCK 0 := by
  unfold quick_xor_hash accumulate_loop
  decide

/-
Claim theorems.
-/

/-- Claim C1, counterexample: the streaming implementation does not reproduce
the documented reference `XorHash` exactly.  On the one-byte input `[0x00]`
the code digest has the length byte at block byte index 7 (value `2 ^ 56`),
while `XorHash` places the length little-endian at byte index 0 (value 1). -/
theorem C1_counterexample : blockVal (quick_xor_hash [0]) ≠ XorHash [0] := by
  unfold quick_xor_hash accumulate_loop
  decide

/-- Claim C1, amended: for every byte sequence, the streaming implementation
`quick_xor_hash` (XOR-accumulate 160-byte chunks, scatter into 8 blocks,
rotate-and-combine, byte-reverse, XOR in the length block) returns the same
160-bit digest as the recursive reference formulation, provided the reference
places the total length in the low 64 bits in big-endian byte order
(`XorHash_be`) rather than the little-endian order of the documented
`extend64`. -/
theorem C1_streaming_matches_reference (rgb : List Nat) (hb : ∀ x ∈ rgb, x < 256) :
    blockVal (quick_xor_hash rgb) = XorHash_be rgb :=
  quick_xor_hash_val rgb hb

/-- Claim C1, witness: the amended equivalence at the concrete input
`[1, 2, 250]`. -/
theorem C1_witness : blockVal (quick_xor_hash [1, 2, 250]) = XorHash_be [1, 2, 250] :=
  C1_streaming_matches_reference [1, 2, 250] (by decide)

/-- Claim C2, counterexample: the spec formula `p = (i*11) mod 1280` gives, for
accumulator byte `i = 15`, destination block 5 and byte-within-block 20, which
is not even a valid index into a 20-byte block; the code (which reduces mod
160) stores byte 15 at block 5, byte 0. -/
theorem C2_counterexample :
    scatter_dest_spec 15 = (5, 20) ∧ ¬ (scatter_dest_spec 15).2 < BYTES_PER_BLOCK ∧
    ((scatter (List.range 160)).getD 5 []).getD 0 0 = 15 ∧ scatter_dest 15 = (5, 0) := by
  decide

/-- Claim C2, amended: Bit Scatter sends each accumulator byte `i`
(`0 ≤ i < 160`, walked in order) to destination position
`p = (i * 11) mod 160`, copying the byte verbatim into destination block
`p mod 8` at byte-within-block index `p / 8`. -/
theorem C2_scatter_destination (hd : List Nat) (i : Nat) (hi : i < BLOCK_UNIT_SIZE) :
    ((scatter hd).getD (scatter_dest i).1 []).getD (scatter_dest i).2 0 = hd.getD i 0 := by
  have hB : (BLOCK_UNIT_SIZE : Nat) = 160 := rfl
  have hi160 : i < 160 := by omega
  unfold scatter_dest
  have hk : i * 11 % BLOCK_UNIT_SIZE % 8 < 8 := Nat.mod_lt _ (by norm_num)
  rw [scatter_eq, scatter_closed_getD hk]
  have hq : i * 11 % BLOCK_UNIT_SIZE / 8 < BYTES_PER_BLOCK := by
    have hp : i * 11 % BLOCK_UNIT_SIZE < 160 := by
      rw [hB]
      exact Nat.mod_lt _ (by norm_num)
    have h20 : (BYTES_PER_BLOCK : Nat) = 20 := rfl
    omega
  have hqlen : i * 11 % BLOCK_UNIT_SIZE / 8 <
      ((List.range BYTES_PER_BLOCK).map
        (fun q => hd.getD (invp (8 * q + i * 11 % BLOCK_UNIT_SIZE % 8)) 0)).length := by
    simpa using hq
  rw [List.getD_eq_getElem _ _ hqlen, List.getElem_map, List.getElem_range]
  have hsum : 8 * (i * 11 % BLOCK_UNIT_SIZE / 8) + i * 11 % BLOCK_UNIT_SIZE % 8 =
      i * 11 % BLOCK_UNIT_SIZE := Nat.div_add_mod _ 8
  rw [hsum, invp_dest i hi160]

/-- Claim C2, witness: accumulator byte 15 (with accumulator `[0..159]`) is
found at the destination computed by the code formula. -/
theorem C2_witness :
    ((scatter (List.range 160)).getD (scatter_dest 15).1 []).getD (scatter_dest 15).2 0 =
      (List.range 160).getD 15 0 :=
  C2_scatter_destination (List.range 160) 15 (by decide)

/-- Claim C3, counterexample: for counter value 1 the code length block differs
from the layout stated in the claim (most significant byte at the highest byte
index of the 8, i.e. least significant byte at index 0): the code puts the
least significant counter byte at index 7, not at index 0. -/
theorem C3_counterexample : length_block 1 ≠ length_block_spec 1 := by
  decide

/-- Claim C3, amended: Length Fold constructs a zero 20-byte block, writes the
64-bit byte counter into its lowest-order 8 bytes in big-endian order with the
most significant byte at the LOWEST byte index of those 8 (byte `j` holds
counter byte `7 - j`, so the least significant byte sits at index 7), leaves
the remaining 12 bytes zero, and XORs this block into the byte-reversed
combined result; the outcome is the digest with no further transformation. -/
theorem C3_length_fold :
    (∀ c j, j < 8 → (length_block c).getD j 0 = (c >>> (8 * (7 - j))) % 256) ∧
    (∀ c j, 8 ≤ j → j < BYTES_PER_BLOCK → (length_block c).getD j 0 = 0) ∧
    (∀ input : List Nat, quick_xor_hash input =
      xor_block
        (reverse_block (combine (scatter
          (accumulate_loop input (List.replicate BLOCK_UNIT_SIZE 0) 0).1)))
        (length_block (accumulate_loop input (List.replicate BLOCK_UNIT_SIZE 0) 0).2)) := by
  refine ⟨?_, ?_, ?_⟩
  · intro c j hj
    interval_cases j <;> rfl
  · intro c j hj8 hj20
    have h20 : (BYTES_PER_BLOCK : Nat) = 20 := rfl
    rw [h20] at hj20
    interval_cases j <;> rfl
  · intro input
    rfl

/-- Claim C3, witness: the layout at counter value 258 (`0x0102`). -/
theorem C3_witness :
    (length_block 258).getD 6 0 = (258 >>> (8 * (7 - 6))) % 256 ∧
    (length_block 258).getD 19 0 = 0 :=
  ⟨C3_length_fold.1 258 6 (by decide), C3_length_fold.2.1 258 19 (by decide) (by decide)⟩

/-- Claim C4, counterexample: `rotate_block` does not rotate for shift amounts
above 8.  At shift 9 (where the C++ shift count `8 - 9` underflows, undefined
behaviour, modelled with truncated subtraction) the block with value 1 becomes
256 (a rotation by 8) instead of 512. -/
theorem C4_counterexample :
    blockVal (rotate_block (1 :: List.replicate 19 0) 9) ≠
      rotate (blockVal (1 :: List.replicate 19 0)) 9 := by
  decide

/-- Claim C4, amended: for every 20-byte block `b` and every `n ≤ 8` (the
algorithm uses 1..7), `rotate_block` returns `b` rotated left by `n` bits,
wrapping across the whole 160-bit span rather than per-byte. -/
theorem C4_rotate_block (b : List Nat) (n : Nat) (hlen : b.length = BYTES_PER_BLOCK)
    (hb : ∀ x ∈ b, x < 256) (hn : n ≤ 8) :
    blockVal (rotate_block b n) = rotate (blockVal b) n :=
  rotate_block_val hlen hb hn

/-- Claim C4, witness: the rotation at shift 7 on the concrete block
`[0..19]`. -/
theorem C4_witness :
    blockVal (rotate_block (List.range 20) 7) = rotate (blockVal (List.range 20)) 7 :=
  C4_rotate_block (List.range 20) 7 (by decide) (by decide) (by decide)

/-- Claim C5, code bug: when the input file cannot be opened (or a read fails),
the `ifstream` merely sets `failbit` — it never throws, because the exception
mask defaults to `goodbit` — so `quick_xor_hash` sees a stream that delivers 0
bytes, `quick_xor_hash_file` returns the digest of the empty input, and `main`
prints that digest and exits 0.  The computation is NOT aborted, no error is
reported, and the exit code is 0, not 2. -/
theorem C5_failed_open_prints_empty_digest (contents : List Nat) :
    quick_xor_hash_file false contents = Except.ok (List.replicate BYTES_PER_BLOCK 0) ∧
    main_model false contents = (0, some (List.replicate BYTES_PER_BLOCK 0).reverse) := by
  have hsb : stream_bytes false contents = [] := rfl
  constructor
  · show Except.ok (quick_xor_hash (stream_bytes false contents)) = _
    rw [hsb, quick_xor_hash_nil]
  · show main_model false contents = _
    unfold main_model quick_xor_hash_file
    rw [hsb, quick_xor_hash_nil]

/-- Claim C6: Accumulation XOR-folds the stream into the 160-byte accumulator
chunk-wise at chunk-relative offsets with the terminal short chunk
zero-padded, so accumulator byte `j` ends up as the XOR of the input bytes at
positions congruent to `j` mod 160; the 64-bit counter ends equal to the total
input length (as a 64-bit value, i.e. mod 2^64); and the empty stream yields
counter 0 and the untouched all-zero accumulator with no special case. -/
theorem C6_accumulation (input : List Nat) :
    (accumulate_loop input (List.replicate BLOCK_UNIT_SIZE 0) 0).2 =
        input.length % 2 ^ 64 ∧
    (accumulate_loop input (List.replicate BLOCK_UNIT_SIZE 0) 0).1.length =
        BLOCK_UNIT_SIZE ∧
    (∀ j, j < BLOCK_UNIT_SIZE →
      (accumulate_loop input (List.replicate BLOCK_UNIT_SIZE 0) 0).1.getD j 0 =
        accByte j input) ∧
    accumulate_loop [] (List.replicate BLOCK_UNIT_SIZE 0) 0 =
      (List.replicate BLOCK_UNIT_SIZE 0, 0) := by
  obtain ⟨h1, h2, h3⟩ := accumulate_spec input
  refine ⟨h2, h1, h3, ?_⟩
  rw [accumulate_loop_short (by decide)]
  decide

/-- Claim C6, witness: the accumulator characterization at the one-byte input
`[7]` and position 0. -/
theorem C6_witness :
    (accumulate_loop [7] (List.replicate BLOCK_UNIT_SIZE 0) 0).1.getD 0 0 =
      accByte 0 [7] :=
  (C6_accumulation [7]).2.2.1 0 (by decide)

/-- Claim C7: in Rotate-and-Combine, block 0 is used unrotated as the running
result, each block `k` for `k = 1..7` is rotated left by exactly `k` bits as a
whole-block 160-bit rotation and XORed in, and afterwards the byte order of
the result is fully reversed (byte `i` swaps with byte `19 - i`). -/
theorem C7_rotate_and_combine (blocks : List (List Nat))
    (hblen : ∀ k, k < 8 → (blocks.getD k []).length = BYTES_PER_BLOCK)
    (hbytes : ∀ k, k < 8 → ∀ x ∈ blocks.getD k [], x < 256) :
    blockVal (reverse_block (combine blocks)) =
      reverse (blockVal (blocks.getD 0 []) ^^^
        xorRange 7 (fun t => rotate (blockVal (blocks.getD (t + 1) [])) (t + 1))) ∧
    (∀ b : List Nat, b.length = BYTES_PER_BLOCK → ∀ i, i < BYTES_PER_BLOCK →
      (reverse_block b).getD i 0 = b.getD (BYTES_PER_BLOCK - 1 - i) 0) := by
  constructor
  · obtain ⟨hClen, hCbytes⟩ := combine_preserve hblen hbytes
    unfold reverse_block
    rw [reverse_blockVal (by rw [hClen]; rfl) hCbytes]
    congr 1
    rw [combine_val hblen hbytes]
    have hp := xorRange_peel 7 (fun k => rotate (blockVal (blocks.getD k [])) k)
    have h78 : (7 + 1 : Nat) = 8 := rfl
    rw [h78] at hp
    rw [hp]
    congr 1
    apply rotate_zero_rot
    have h0b := hbytes 0 (by norm_num)
    have h0len := hblen 0 (by norm_num)
    have hv := blockVal_lt h0b
    rw [h0len] at hv
    calc blockVal (blocks.getD 0 []) < 2 ^ (8 * BYTES_PER_BLOCK) := hv
    _ = 2 ^ 160 := by norm_num [BYTES_PER_BLOCK]
  · intro b hlen i hi
    unfold reverse_block
    have h20 : (BYTES_PER_BLOCK : Nat) = 20 := rfl
    have hi1 : i < b.reverse.length := by
      rw [List.length_reverse, hlen]
      exact hi
    have hi2 : BYTES_PER_BLOCK - 1 - i < b.length := by
      rw [hlen]
      omega
    rw [List.getD_eq_getElem _ _ hi1, List.getD_eq_getElem _ _ hi2, List.getElem_reverse]
    congr 1
    rw [hlen]

/-- Claim C7, witness: the value equation at the concrete block set consisting
of eight copies of the block `[0..19]`. -/
theorem C7_witness :
    blockVal (reverse_block (combine (List.replicate 8 (List.range 20)))) =
      reverse (blockVal ((List.replicate 8 (List.range 20)).getD 0 []) ^^^
        xorRange 7 (fun t =>
          rotate (blockVal ((List.replicate 8 (List.range 20)).getD (t + 1) [])) (t + 1))) :=
  (C7_rotate_and_combine (List.replicate 8 (List.range 20))
    (by decide) (by decide)).1

/-- Claim C8, counterexample: with the modulus 1280 stated in the claim, the
destination map does not touch each of the 8 x 20 slots exactly once — its
image is not the set of valid (block, byte-within-block) pairs at all. -/
theorem C8_counterexample :
    ¬ ((List.range 160).map scatter_dest_spec).Perm
        ((List.range 160).map fun p => (p % 8, p / 8)) := by
  decide

/-- Claim C8, amended: the destination-position formula of the code,
`p = (i * 11) mod 160` with destination pair `(p mod 8, p / 8)`, maps the 160
accumulator byte indices onto the 160 distinct (block, byte-within-block)
slots with no collisions, touching each of the 8 x 20 slots exactly once,
independently of any input data. -/
theorem C8_scatter_bijection :
    ((List.range 160).map scatter_dest).Perm
      ((List.range 160).map fun p => (p % 8, p / 8)) := by
  decide

/-- Claim C9: appending `k ≥ 1` zero bytes to an input leaves the accumulator
unchanged, and — provided the two total lengths differ modulo 2^64 — changes
the digest, purely because the length blocks differ. -/
theorem C9_length_sensitivity (x : List Nat) (k : Nat) (hb : ∀ b ∈ x, b < 256)
    (hk : 1 ≤ k) (hlen : x.length % 2 ^ 64 ≠ (x.length + k) % 2 ^ 64) :
    (accumulate_loop (x ++ List.replicate k 0) (List.replicate BLOCK_UNIT_SIZE 0) 0).1 =
      (accumulate_loop x (List.replicate BLOCK_UNIT_SIZE 0) 0).1 ∧
    quick_xor_hash (x ++ List.replicate k 0) ≠ quick_xor_hash x := by
  have hbz : ∀ b ∈ x ++ List.replicate k 0, b < 256 := by
    intro b hbm
    rcases List.mem_append.mp hbm with hbm | hbm
    · exact hb b hbm
    · rw [List.eq_of_mem_replicate hbm]
      norm_num
  constructor
  · obtain ⟨ha1, ha2, ha3⟩ := accumulate_spec (x ++ List.replicate k 0)
    obtain ⟨hb1, hb2, hb3⟩ := accumulate_spec x
    apply List.ext_getElem
    · rw [ha1, hb1]
    · intro n h1 h2
      have hn : n < BLOCK_UNIT_SIZE := by
        rw [ha1] at h1
        exact h1
      have e1 := ha3 n hn
      have e2 := hb3 n hn
      rw [List.getD_eq_getElem _ _ h1] at e1
      rw [List.getD_eq_getElem _ _ h2] at e2
      rw [e1, e2, accByte_append_zeros (x ++ List.replicate k 0).length x
        (by rw [List.length_append]; omega) k n]
  · intro heq
    have hv := congrArg blockVal heq
    rw [quick_xor_hash_val _ hbz, quick_xor_hash_val _ hb] at hv
    unfold XorHash_be at hv
    rw [XorHash0_append_zeros x k hb] at hv
    have hcancel := nat_xor_right_cancel hv
    have hlenz : (x ++ List.replicate k 0).length = x.length + k := by
      rw [List.length_append, List.length_replicate]
    rw [hlenz] at hcancel
    rw [← extend64_be_mod (x.length + k), ← extend64_be_mod x.length] at hcancel
    have := extend64_be_inj (Nat.mod_lt _ (by norm_num)) (Nat.mod_lt _ (by norm_num)) hcancel
    exact hlen this.symm

/-- Claim C9, witness: the empty input against a single appended zero byte. -/
theorem C9_witness :
    quick_xor_hash ([] ++ List.replicate 1 0) ≠ quick_xor_hash [] :=
  (C9_length_sensitivity [] 1 (by decide) (by decide) (by decide)).2

/-- Claim C10: the digest of the empty input is the all-zero 20-byte block. -/
theorem C10_empty_digest : quick_xor_hash [] = List.replicate BYTES_PER_BLOCK 0 :=
  quick_xor_hash_nil
